import Mathlib

/-!
# users: the file-backed user repository and its use-case layer

A shallow embedding of

* `internal/entity/user.go`   (the `User` record),
* `internal/repo/user_file.go` (the repository: `New`, `GetByID`, `Create`, `Update`, `Delete`),
* `internal/usecases/user.go`  (the use-case layer on top of a `UserRepo`),

followed by the properties of these functions.

Conventions of the embedding.

* Go `int` is the 64-bit two's complement integer: values are `Int`, and the one place where
  the code does arithmetic on it (`r.inc++`) wraps explicitly.
* Go `string` is `String`, that is, text that is valid UTF-8.
* A Go call either returns its results or panics; `Outcome` records which.
* Stateful methods take the receiver state and give back the state they leave behind.
* `sync.RWMutex` is not modelled: calls are run one after another.  The `context.Context`
  argument, which no function reads, is left out.
* The backing file is part of the repository state.  Its bytes are kept as the JSON value
  they spell, which is what `encoding/json` hands to and takes from the code.
* Whether `os.WriteFile` succeeds is decided by the file system; it is an argument of every
  method that writes.
* Package `time` is outside the repository; the JSON codec of `time.Time` is an argument.
-/

set_option autoImplicit false

/-! ## Go values: errors, call outcomes, `int` -/

/-- Go error values, as far as the code tells them apart: a sentinel made by `errors.New`
(compared by identity, here by name), an error built by a library, and an error that wraps
another one with a context (`fmt.Errorf` with the verb `%w`, or a library error type with an
`Unwrap` method). -/
inductive Error where
  | sentinel (name : String)
  | lib (pkg : String) (msg : String)
  | wrap (context : String) (err : Error)
deriving DecidableEq, Repr

namespace Error

/-- The chain walk of `errors.Is` on a non-nil error: the error itself, then what it wraps. -/
def matchesTarget : Error → Error → Bool
  | wrap c e, target => decide (wrap c e = target) || matchesTarget e target
  | e, target => decide (e = target)

end Error

namespace errors

/-- Go's `errors.Is(err, target)`; `none` is the nil error. -/
def Is (err : Option Error) (target : Error) : Bool :=
  match err with
  | none => false
  | some e => e.matchesTarget target

end errors

namespace fmt

/-- Go's `fmt.Errorf(context + ": %w", err)`. -/
def Errorf (context : String) (err : Error) : Error := Error.wrap context err

end fmt

/-- How a Go call ends: it returns its results, or it panics and never returns to its caller. -/
inductive Outcome (α : Type) where
  | returned (results : α)
  | panicked (msg : String)
deriving DecidableEq, Repr

namespace goint

/-- Largest value of Go's `int` (64 bits). -/
def maxInt : Int := 9223372036854775807

/-- Smallest value of Go's `int` (64 bits). -/
def minInt : Int := -9223372036854775808

/-- The values an `int` variable can hold. -/
def InRange (x : Int) : Prop := minInt ≤ x ∧ x ≤ maxInt

instance (x : Int) : Decidable (InRange x) := by unfold InRange; infer_instance

/-- Result of an `int` operation whose mathematical value is `x`: two's complement wrap-around. -/
def wrap (x : Int) : Int :=
  (x + 9223372036854775808) % 18446744073709551616 - 9223372036854775808

end goint

/-! ## `strconv` -/

namespace strconv

/-- Decimal digits of `n`, least significant first (`fuel` bounds the number of digits). -/
def digitsRev : Nat → Nat → List Char
  | 0, _ => []
  | fuel + 1, n =>
    Char.ofNat (48 + n % 10) :: (if n / 10 = 0 then [] else digitsRev fuel (n / 10))

/-- Decimal digits of `n`, most significant first; `0` is the single digit 0. -/
def digits (n : Nat) : List Char := (digitsRev (n + 1) n).reverse

/-- Go's `strconv.Itoa`: the canonical decimal text of an integer, with a leading minus sign
for a negative one. -/
def Itoa (i : Int) : String :=
  match i with
  | Int.ofNat n => String.mk (digits n)
  | Int.negSucc n => String.mk ('-' :: digits (n + 1))

/-- Whether the character is one of 0 to 9. -/
def isDigit (c : Char) : Bool := decide (48 ≤ c.toNat) && decide (c.toNat ≤ 57)

/-- One step of reading decimal digits left to right; `none` once a non-digit was met. -/
def digitStep (acc : Option Nat) (c : Char) : Option Nat :=
  match acc with
  | none => none
  | some a => if isDigit c then some (a * 10 + (c.toNat - 48)) else none

/-- The number spelled by a non-empty run of decimal digits (of any length); `none` for
anything else.  This is the mathematical value of a numeral, without any bound. -/
def parseDigits (cs : List Char) : Option Nat :=
  match cs with
  | [] => none
  | _ :: _ => cs.foldl digitStep (some 0)

/-- The syntax error of `strconv.Atoi`. -/
def ErrSyntax : Error := Error.wrap "strconv.Atoi" (Error.sentinel "strconv.ErrSyntax")

/-- The range error of `strconv.Atoi`. -/
def ErrRange : Error := Error.wrap "strconv.Atoi" (Error.sentinel "strconv.ErrRange")

/-- The leading sign of a numeral: whether it is a minus sign, and the text after the sign. -/
def splitSign (cs : List Char) : Bool × List Char :=
  match cs with
  | [] => (false, [])
  | c :: rest =>
    if c = '-' then (true, rest) else if c = '+' then (false, rest) else (false, c :: rest)

/-- Where the loop of `strconv.ParseUint` stands: the number read so far, or the error it has
already returned with (a syntax error, or a range error with the largest `uint64`). -/
inductive Parsed where
  | value (n : Nat)
  | invalid
  | overflow
deriving DecidableEq, Repr

/-- One round of the loop of `strconv.ParseUint` in base 10 with 64 bits.  A byte that is not a
decimal digit returns the syntax error.  For a digit `d`: `if n >= cutoff` returns the range
error, with `cutoff = maxUint64/10 + 1`; then `n *= 10; n1 := n + d` and
`if n1 < n || n1 > maxVal` returns the range error too.  Once the loop has returned, the rest of
the text is not looked at. -/
def uintStep (st : Parsed) (c : Char) : Parsed :=
  match st with
  | .value n =>
    if isDigit c then
      (if 1844674407370955162 ≤ n then .overflow
       else if 18446744073709551615 < n * 10 + (c.toNat - 48) then .overflow
       else .value (n * 10 + (c.toNat - 48)))
    else .invalid
  | .invalid => .invalid
  | .overflow => .overflow

/-- Go's `strconv.ParseUint(s, 10, 64)`: the empty text is a syntax error; otherwise the bytes
are read left to right, and the first syntax or range error ends the reading. -/
def ParseUint (cs : List Char) : Parsed :=
  match cs with
  | [] => .invalid
  | _ :: _ => cs.foldl uintStep (.value 0)

/-- Go's `strconv.ParseInt(s, 10, 64)`: strip the sign, call `ParseUint`, return 0 with a
syntax error, and otherwise check the range of the signed value.  After a range error of
`ParseUint` the unsigned value is the largest `uint64`, which is out of range for either sign,
so the result is the nearest `int` bound. -/
def ParseInt (cs : List Char) : Int × Option Error :=
  match ParseUint (splitSign cs).2 with
  | .invalid => (0, some ErrSyntax)
  | .overflow =>
    if (splitSign cs).1 then (goint.minInt, some ErrRange) else (goint.maxInt, some ErrRange)
  | .value un =>
    if (splitSign cs).1 then
      (if 9223372036854775808 < un then (goint.minInt, some ErrRange) else (-(un : Int), none))
    else
      (if 9223372036854775808 ≤ un then (goint.maxInt, some ErrRange) else ((un : Int), none))

/-- Go's `strconv.Atoi` on a 64-bit platform.  For a text of 1 to 18 bytes Go takes a fast
path, which reads an optional sign and decimal digits and cannot overflow; it returns what
`ParseInt` returns for such a text.  Every other text goes to `ParseInt`.  With a syntax error
the value is 0; with a range error it is the nearest `int` bound. -/
def Atoi (s : String) : Int × Option Error := ParseInt s.data

/-- The number spelled by the decimal digits a text starts with, continuing from `a`; it is `a`
when the text does not start with a digit. -/
def leadingValue (a : Nat) : List Char → Nat
  | [] => a
  | c :: cs => if isDigit c then leadingValue (a * 10 + (c.toNat - 48)) cs else a

end strconv

/-! ## `time` and `entity` -/

namespace time

/-- Go's `time.Time` (its three fields; the location pointer is kept as the zone name). -/
structure Time where
  wall : Nat
  ext : Int
  loc : Option String
deriving DecidableEq, Repr

/-- The zero `time.Time`. -/
def Time.zero : Time := { wall := 0, ext := 0, loc := none }

/-- The JSON codec of `time.Time`: `MarshalJSON` gives the text that goes between the quotes
(RFC 3339) or fails (a year outside 0..9999); `UnmarshalJSON` reads the text of a JSON string. -/
structure Codec where
  MarshalJSON : Time → Except Error String
  UnmarshalJSON : String → Except Error Time

end time

namespace entity

/-- The `User` record of `internal/entity/user.go`. -/
structure User where
  CreatedAt : time.Time
  DisplayName : String
  Email : String
  ID : Int
deriving DecidableEq, Repr

/-- The zero value `entity.User{}`. -/
def User.zero : User := { CreatedAt := time.Time.zero, DisplayName := "", Email := "", ID := 0 }

/-- Modelled from the spec: `entity.ErrNoID`, the package-level "not found" error value the
repository returns and the use-case layer tests for; its declaration is not among the sources.
It is a sentinel: one fixed value, matched with `errors.Is`. -/
def ErrNoID : Error := Error.sentinel "entity.ErrNoID"

end entity

/-! ## The repository's data: `userList`, `userDAO`, and the JSON document -/

namespace repo

/-- Go's `type userList map[string]entity.User`: the nil map, or an allocated map (a finite
set of entries with distinct keys). -/
inductive userList where
  | nil
  | mk (m : AList (fun _ : String => entity.User))

namespace userList

/-- The empty allocated map `map[string]entity.User{}`. -/
def empty : userList := mk ∅

/-- Go's `v, ok := l[k]`: reading a nil map finds nothing. -/
def index (l : userList) (k : String) : Option entity.User :=
  match l with
  | nil => none
  | mk m => m.lookup k

/-- Go's `l[k] = v`: `none` is the panic "assignment to entry in nil map". -/
def assign (l : userList) (k : String) (v : entity.User) : Option userList :=
  match l with
  | nil => none
  | mk m => some (mk (m.insert k v))

/-- Go's `delete(l, k)`: a no-op on a nil map and on an absent key. -/
def delete (l : userList) (k : String) : userList :=
  match l with
  | nil => nil
  | mk m => mk (m.erase k)

/-- The keys a `for k := range l` loop visits. -/
def keys (l : userList) : List String :=
  match l with
  | nil => []
  | mk m => m.keys

end userList

/-- The persisted document `userDAO` with its two fields `increment` and `list`. -/
structure userDAO where
  Increment : Int
  List : userList

end repo

namespace json

/-- A JSON value.  A number keeps its literal text; an object keeps its members in document
order, repeated names included. -/
inductive Value where
  | null
  | bool (b : Bool)
  | number (lit : String)
  | string (s : String)
  | array (elems : List Value)
  | object (members : List (String × Value))

/-- The name `encoding/json` gives the kind of a value in an `UnmarshalTypeError`. -/
def Value.kind : Value → String
  | .null => "null"
  | .bool _ => "bool"
  | .number _ => "number"
  | .string _ => "string"
  | .array _ => "array"
  | .object _ => "object"

/-- The error `encoding/json` records when a JSON value does not fit the Go type it is decoded
into (`*json.UnmarshalTypeError`). -/
def typeError (value : String) (goType : String) : Error :=
  Error.lib "encoding/json" ("cannot unmarshal " ++ value ++ " into Go value of type " ++ goType)

/-- The decoder keeps the first type error and goes on (`decodeState.saveError`). -/
def saveError (saved : Option Error) (e : Error) : Option Error :=
  match saved with
  | none => some e
  | some s => some s

/-! ### Encoding -/

/-- Byte-wise order of two strings (the order in which `encoding/json` writes map keys). -/
def keyLE : List Char → List Char → Bool
  | [], _ => true
  | _ :: _, [] => false
  | a :: as, b :: bs => decide (a.toNat < b.toNat) || (decide (a.toNat = b.toNat) && keyLE as bs)

/-- The entries of a map in the order `encoding/json` writes them: sorted by key. -/
def sortEntries (es : List (Sigma fun _ : String => entity.User)) :
    List (Sigma fun _ : String => entity.User) :=
  es.insertionSort (fun a b => keyLE a.1.data b.1.data = true)

/-- Encoding of one `entity.User`: the three tagged fields, in declaration order; the field
`ID` carries the tag `json:"-"` and is not written.  Fails when `time.Time.MarshalJSON` does. -/
def marshalUser (tc : time.Codec) (u : entity.User) : Except Error Value :=
  match tc.MarshalJSON u.CreatedAt with
  | .error e => .error (Error.wrap "json: error calling MarshalJSON for type time.Time" e)
  | .ok t =>
    .ok (.object [("created_at", .string t), ("display_name", .string u.DisplayName),
      ("email", .string u.Email)])

/-- Encoding of the entries of a map, in the given order, stopping at the first failure. -/
def marshalEntries (tc : time.Codec) :
    List (Sigma fun _ : String => entity.User) → Except Error (List (String × Value))
  | [] => .ok []
  | e :: es =>
    match marshalUser tc e.2 with
    | .error x => .error x
    | .ok v =>
      match marshalEntries tc es with
      | .error x => .error x
      | .ok vs => .ok ((e.1, v) :: vs)

/-- Encoding of a `userList`: `null` for the nil map, else an object with sorted keys. -/
def marshalList (tc : time.Codec) (l : repo.userList) : Except Error Value :=
  match l with
  | .nil => .ok .null
  | .mk m =>
    match marshalEntries tc (sortEntries m.entries) with
    | .error x => .error x
    | .ok ms => .ok (.object ms)

/-- Go's `json.Marshal` applied to a `userDAO`. -/
def Marshal (tc : time.Codec) (d : repo.userDAO) : Except Error Value :=
  match marshalList tc d.List with
  | .error x => .error x
  | .ok l => .ok (.object [("increment", .number (strconv.Itoa d.Increment)), ("list", l)])

/-! ### Decoding -/

/-- Case folding of one character of an object member name, as `encoding/json` does it when it
looks up a struct field: ASCII letters to upper case; the long s (U+017F) and the Kelvin sign
(U+212A) fold to S and K.  No other character folds to an ASCII character. -/
def foldRune (c : Char) : Char :=
  if 97 ≤ c.toNat ∧ c.toNat ≤ 122 then Char.ofNat (c.toNat - 32)
  else if c.toNat = 383 then 'S'
  else if c.toNat = 8490 then 'K'
  else c

/-- Case folding of a member name. -/
def foldName (s : String) : String := String.mk (s.data.map foldRune)

/-- Decoding a JSON value into a field of Go type `string` that holds `cur`. -/
def decodeString (v : Value) (cur : String) (saved : Option Error) : String × Option Error :=
  match v with
  | .string s => (s, saved)
  | .null => (cur, saved)
  | other => (cur, saveError saved (typeError other.kind "string"))

/-- Decoding a JSON value into a field of type `time.Time` that holds `cur`: the value is
handed to `time.Time.UnmarshalJSON`, which ignores `null`, reads a string and rejects anything
else; its error ends the decoding at once. -/
def decodeTime (tc : time.Codec) (v : Value) (cur : time.Time) : Except Error time.Time :=
  match v with
  | .null => .ok cur
  | .string s => tc.UnmarshalJSON s
  | _ => .error (Error.lib "time" "Time.UnmarshalJSON: input is not a JSON string")

/-- Decoding one object member into the `entity.User` being built.  The member name is matched
against the three tagged fields without regard to case; a member with another name is skipped. -/
def decodeField (tc : time.Codec) (st : entity.User × Option Error) (m : String × Value) :
    Except Error (entity.User × Option Error) :=
  if foldName m.1 = "CREATED_AT" then
    match decodeTime tc m.2 st.1.CreatedAt with
    | .error e => .error e
    | .ok t => .ok ({ st.1 with CreatedAt := t }, st.2)
  else if foldName m.1 = "DISPLAY_NAME" then
    .ok ({ st.1 with DisplayName := (decodeString m.2 st.1.DisplayName st.2).1 },
      (decodeString m.2 st.1.DisplayName st.2).2)
  else if foldName m.1 = "EMAIL" then
    .ok ({ st.1 with Email := (decodeString m.2 st.1.Email st.2).1 },
      (decodeString m.2 st.1.Email st.2).2)
  else .ok st

/-- Decoding the members of an object, in document order, into an `entity.User`. -/
def decodeFields (tc : time.Codec) :
    List (String × Value) → entity.User × Option Error → Except Error (entity.User × Option Error)
  | [], st => .ok st
  | m :: ms, st =>
    match decodeField tc st m with
    | .error e => .error e
    | .ok st1 => decodeFields tc ms st1

/-- Decoding a JSON value into a fresh (zero) `entity.User`: an object fills fields, `null`
leaves the zero value, anything else is a type error that is saved. -/
def decodeUser (tc : time.Codec) (v : Value) (saved : Option Error) :
    Except Error (entity.User × Option Error) :=
  match v with
  | .object ms => decodeFields tc ms (entity.User.zero, saved)
  | .null => .ok (entity.User.zero, saved)
  | other => .ok (entity.User.zero, saveError saved (typeError other.kind "entity.User"))

/-- Decoding the members of the top-level object into the map, in document order: every member
value is decoded into a fresh `entity.User`, which is then stored under the member name.  The
result is the map as left behind and the error `Decode` reports (an error of
`UnmarshalJSON` at once, else the first saved type error, else none). -/
def decodeEntries (tc : time.Codec) :
    List (String × Value) → AList (fun _ : String => entity.User) → Option Error →
      AList (fun _ : String => entity.User) × Option Error
  | [], m, saved => (m, saved)
  | kv :: ms, m, saved =>
    match decodeUser tc kv.2 saved with
    | .error e => (m, some e)
    | .ok st => decodeEntries tc ms (m.insert kv.1 st.1) st.2

end json

namespace os

/-- The contents of the backing file as `encoding/json` reads them: the first JSON value the
bytes spell, or `none` when they do not start with one (an empty or malformed file). -/
abbrev File := Option json.Value

/-- What one call of `os.WriteFile` does, which the file system decides: it succeeds and the
file holds exactly the bytes given, or it fails with an error and leaves the file holding
`left` (untouched, truncated, partly written). -/
inductive WriteOutcome where
  | ok
  | fail (err : Error) (left : File)

/-- Go's `os.WriteFile(name, data, perm)` on the backing file: the new contents and the error. -/
def WriteFile (w : WriteOutcome) (_old : File) (data : json.Value) : File × Option Error :=
  match w with
  | .ok => (some data, none)
  | .fail err left => (left, some err)

end os

namespace json

/-- Go's `json.NewDecoder(f).Decode(&cache)` for a `cache` of type `userList`: the map as left
behind and the error returned.  A top-level `null` sets the map to nil; a top-level object
is decoded member by member into the map (allocated first if it was nil); any other value
is a type error. -/
def Decode (tc : time.Codec) (f : os.File) (cache : repo.userList) : repo.userList × Option Error :=
  match f with
  | none => (cache, some (Error.lib "encoding/json" "no JSON value to read"))
  | some .null => (repo.userList.nil, none)
  | some (.object ms) =>
    let m0 : AList (fun _ : String => entity.User) :=
      match cache with
      | .nil => ∅
      | .mk m => m
    ((repo.userList.mk (decodeEntries tc ms m0 none).1), (decodeEntries tc ms m0 none).2)
  | some other => (cache, some (typeError other.kind "repo.userList"))

end json

/-! ## `internal/repo/user_file.go` -/

namespace repo

/-- The repository `User`: the backing file `f`, the in-memory `cache` and the counter `inc`
(the mutex `mu` is not modelled). -/
structure User where
  f : os.File
  cache : userList
  inc : Int

namespace User

/-- The method `getCache`: decode the whole file into `r.cache`. -/
def getCache (tc : time.Codec) (r : User) : Option Error × User :=
  ((json.Decode tc r.f r.cache).2, { r with cache := (json.Decode tc r.f r.cache).1 })

end User

/-- One round of the loop of `New` over the cache keys: `v, _ := strconv.Atoi(k)`, then
`if v > max then max = v`. -/
def maxStep (max : Int) (k : String) : Int :=
  if (strconv.Atoi k).1 > max then (strconv.Atoi k).1 else max

/-- The constructor `New`: build the repository over the file, fill the cache with `getCache`,
and set the counter to the largest `strconv.Atoi` value of a key (starting from 0).  The keys
are visited in the order of the entries; Go leaves that order open. -/
def New (tc : time.Codec) (f : os.File) : Except Error User :=
  let user : User := { f := f, cache := userList.empty, inc := 0 }
  match user.getCache tc with
  | (some err, _) => .error err
  | (none, user1) => .ok { user1 with inc := user1.cache.keys.foldl maxStep 0 }

namespace User

/-- The method `GetByID`. -/
def GetByID (r : User) (id : Int) : Outcome (entity.User × Option Error) × User :=
  match r.cache.index (strconv.Itoa id) with
  | none => (.returned (entity.User.zero, some entity.ErrNoID), r)
  | some user => (.returned (user, none), r)

/-- The method `Create`. -/
def Create (tc : time.Codec) (w : os.WriteOutcome) (r : User) (user : entity.User) :
    Outcome (Int × Option Error) × User :=
  let r1 : User := { r with inc := goint.wrap (r.inc + 1) }
  match r1.cache.assign (strconv.Itoa r1.inc) user with
  | none => (.panicked "assignment to entry in nil map", r1)
  | some cache =>
    let r2 : User := { r1 with cache := cache }
    match json.Marshal tc { Increment := r2.inc, List := r2.cache } with
    | .error err => (.returned (0, some (fmt.Errorf "repo - Create" err)), r2)
    | .ok buf =>
      match os.WriteFile w r2.f buf with
      | (f, some err) => (.returned (0, some (fmt.Errorf "repo - Create" err)), { r2 with f := f })
      | (f, none) => (.returned (r2.inc, none), { r2 with f := f })

/-- The method `Update`. -/
def Update (tc : time.Codec) (w : os.WriteOutcome) (r : User) (user : entity.User) :
    Outcome (Option Error) × User :=
  match r.cache.assign (strconv.Itoa user.ID) user with
  | none => (.panicked "assignment to entry in nil map", r)
  | some cache =>
    let r1 : User := { r with cache := cache }
    match json.Marshal tc { Increment := r1.inc, List := r1.cache } with
    | .error err => (.returned (some (fmt.Errorf "repo - Update" err)), r1)
    | .ok buf =>
      match os.WriteFile w r1.f buf with
      | (f, some err) => (.returned (some (fmt.Errorf "repo - Update" err)), { r1 with f := f })
      | (f, none) => (.returned none, { r1 with f := f })

/-- The method `Delete`. -/
def Delete (tc : time.Codec) (w : os.WriteOutcome) (r : User) (id : Int) :
    Outcome (Option Error) × User :=
  let r1 : User := { r with cache := r.cache.delete (strconv.Itoa id) }
  match json.Marshal tc { Increment := r1.inc, List := r1.cache } with
  | .error err => (.returned (some (fmt.Errorf "repo - Delete" err)), r1)
  | .ok buf =>
    match os.WriteFile w r1.f buf with
    | (f, some err) => (.returned (some (fmt.Errorf "repo - Delete" err)), { r1 with f := f })
    | (f, none) => (.returned none, { r1 with f := f })

end User

end repo

/-! ## `internal/usecases/user.go` -/

namespace usecases

/-- The interface `UserRepo`, over the state `σ` of whatever implements it. -/
structure UserRepo (σ : Type) where
  GetByID : σ → Int → Outcome (entity.User × Option Error) × σ
  Create : σ → entity.User → Outcome (Int × Option Error) × σ
  Update : σ → entity.User → Outcome (Option Error) × σ
  Delete : σ → Int → Outcome (Option Error) × σ

/-- The struct `UserUsecase`. -/
structure UserUsecase (σ : Type) where
  r : UserRepo σ

/-- The constructor `New`. -/
def New {σ : Type} (r : UserRepo σ) : UserUsecase σ := { r := r }

namespace UserUsecase

variable {σ : Type}

/-- The method `GetUserByID`. -/
def GetUserByID (u : UserUsecase σ) (s : σ) (id : Int) :
    Outcome (entity.User × Option Error) × σ :=
  match u.r.GetByID s id with
  | (.panicked msg, s1) => (.panicked msg, s1)
  | (.returned (user, err), s1) =>
    if errors.Is err entity.ErrNoID then (.returned (entity.User.zero, err), s1)
    else
      match err with
      | some e => (.returned (entity.User.zero, some (fmt.Errorf "UserUsecase - GetUserByID" e)), s1)
      | none => (.returned (user, none), s1)

/-- The method `CreateUser`. -/
def CreateUser (u : UserUsecase σ) (s : σ) (user : entity.User) :
    Outcome (Int × Option Error) × σ :=
  match u.r.Create s user with
  | (.panicked msg, s1) => (.panicked msg, s1)
  | (.returned (id, err), s1) =>
    match err with
    | some e => (.returned (0, some (fmt.Errorf "UserUsecase - CreateUser" e)), s1)
    | none => (.returned (id, none), s1)

/-- The method `UpdateUser`. -/
def UpdateUser (u : UserUsecase σ) (s : σ) (user : entity.User) : Outcome (Option Error) × σ :=
  match u.GetUserByID s user.ID with
  | (.panicked msg, s1) => (.panicked msg, s1)
  | (.returned (_, err), s1) =>
    if errors.Is err entity.ErrNoID then (.returned err, s1)
    else
      match err with
      | some e => (.returned (some (fmt.Errorf "UserUsecase - UpdateUser" e)), s1)
      | none =>
        match u.r.Update s1 user with
        | (.panicked msg, s2) => (.panicked msg, s2)
        | (.returned (some e), s2) =>
          (.returned (some (fmt.Errorf "UserUsecase - UpdateUser" e)), s2)
        | (.returned none, s2) => (.returned none, s2)

/-- The method `DeleteUser`. -/
def DeleteUser (u : UserUsecase σ) (s : σ) (id : Int) : Outcome (Option Error) × σ :=
  match u.GetUserByID s id with
  | (.panicked msg, s1) => (.panicked msg, s1)
  | (.returned (_, err), s1) =>
    if errors.Is err entity.ErrNoID then (.returned err, s1)
    else
      match err with
      | some e => (.returned (some (fmt.Errorf "UserUsecase - DeleteUser" e)), s1)
      | none =>
        match u.r.Delete s1 id with
        | (.panicked msg, s2) => (.panicked msg, s2)
        | (.returned (some e), s2) =>
          (.returned (some (fmt.Errorf "UserUsecase - DeleteUser" e)), s2)
        | (.returned none, s2) => (.returned none, s2)

end UserUsecase

/-- The file-backed repository as a `UserRepo`, for one answer `w` of the file system to the
write the call may make (a use-case call makes at most one). -/
def fileRepo (tc : time.Codec) (w : os.WriteOutcome) : UserRepo repo.User where
  GetByID := fun r id => r.GetByID id
  Create := fun r user => r.Create tc w user
  Update := fun r user => r.Update tc w user
  Delete := fun r id => r.Delete tc w id

end usecases

/-! ## Vocabulary of the properties -/

namespace repo

/-- The key bound of the persisted document: every key of the cache is the decimal text of a
positive integer that is not above the counter. -/
def KeyBound (r : User) : Prop :=
  ∀ k ∈ r.cache.keys, ∃ n : Int, 0 < n ∧ n ≤ r.inc ∧ k = strconv.Itoa n

/-- A run of `Delete` calls, each with its id and the answer of the file system to its write. -/
def User.deletes (tc : time.Codec) (r : User) (ds : List (Int × os.WriteOutcome)) : User :=
  ds.foldl (fun s d => (s.Delete tc d.2 d.1).2) r

/-- One call of a repository method, with the answer of the file system when it writes. -/
inductive Call where
  | getByID (id : Int)
  | create (user : entity.User) (w : os.WriteOutcome)
  | update (user : entity.User) (w : os.WriteOutcome)
  | delete (id : Int) (w : os.WriteOutcome)

/-- Whether the call is a `Create`. -/
def Call.isCreate : Call → Bool
  | .create _ _ => true
  | _ => false

/-- The ID a `Create` outcome hands to its caller: present when the call returned a nil error. -/
def createdID (o : Outcome (Int × Option Error)) : Option Int :=
  match o with
  | .returned (id, none) => some id
  | _ => none

/-- Running one call: the ID it returned if it was a successful `Create`, and the state left. -/
def Call.step (tc : time.Codec) (r : User) (c : Call) : Option Int × User :=
  match c with
  | .getByID id => (none, (r.GetByID id).2)
  | .create user w => (createdID (r.Create tc w user).1, (r.Create tc w user).2)
  | .update user w => (none, (r.Update tc w user).2)
  | .delete id w => (none, (r.Delete tc w id).2)

/-- The state after a sequence of calls. -/
def runCalls (tc : time.Codec) (r : User) (cs : List Call) : User :=
  cs.foldl (fun s c => (Call.step tc s c).2) r

/-- The IDs the successful `Create` calls of a sequence returned, in the order of the calls. -/
def returnedIDs (tc : time.Codec) : User → List Call → List Int
  | _, [] => []
  | r, c :: cs =>
    match (Call.step tc r c).1 with
    | some id => id :: returnedIDs tc (Call.step tc r c).2 cs
    | none => returnedIDs tc (Call.step tc r c).2 cs

/-- Whether the call is a `Create`, `Update` or `Delete` that returned a nil error. -/
def Call.mutationSucceeds (tc : time.Codec) (r : User) (c : Call) : Bool :=
  match c with
  | .getByID _ => false
  | .create user w => (createdID (r.Create tc w user).1).isSome
  | .update user w =>
    match (r.Update tc w user).1 with
    | .returned none => true
    | _ => false
  | .delete id w =>
    match (r.Delete tc w id).1 with
    | .returned none => true
    | _ => false

/-- The numeric value of a key as the spec speaks of it: the integer, of any size, that an
optionally signed run of decimal digits spells; a key of another form has none. -/
def numericValue (k : String) : Option Int :=
  match k.data with
  | [] => none
  | c :: rest =>
    if c = '-' then (strconv.parseDigits rest).map (fun (n : Nat) => -(n : Int))
    else if c = '+' then (strconv.parseDigits rest).map (fun (n : Nat) => (n : Int))
    else (strconv.parseDigits (c :: rest)).map (fun (n : Nat) => (n : Int))

/-- The largest numeric value among the keys, and 0 when no key has a positive one. -/
def maxNumericValue (ks : List String) : Int :=
  (ks.filterMap numericValue).foldr max 0

/-- Whether the key has no minus sign and the decimal digits it starts with (after an optional
plus sign) spell a number of 2^64 or more, whatever follows those digits. -/
def overflowsEarly (k : String) : Bool :=
  match k.data with
  | [] => false
  | c :: rest =>
    if c = '-' then false
    else if c = '+' then decide (18446744073709551616 ≤ strconv.leadingValue 0 rest)
    else decide (18446744073709551616 ≤ strconv.leadingValue 0 (c :: rest))

/-- The value with which a key counts towards the counter: the largest `int` for a key that
overflows early; otherwise the numeric value of the key, with a value above the largest `int`
counting as the largest `int`; and 0 for a key without a numeric value. -/
def countedValue (k : String) : Int :=
  if overflowsEarly k then goint.maxInt
  else
    match numericValue k with
    | some v => min v goint.maxInt
    | none => 0

/-- The largest counted value among the keys, and 0 when no key has a positive one. -/
def maxCountedValue (ks : List String) : Int :=
  (ks.map countedValue).foldr max 0

/-- Every record of the map has a creation time that `MarshalJSON` accepts, so that
`json.Marshal` of a document with this map goes through. -/
def Marshalable (tc : time.Codec) (l : userList) : Prop :=
  ∀ k u, l.index k = some u → ∃ s, tc.MarshalJSON u.CreatedAt = .ok s

end repo

namespace json

/-- The value of the first member with the name `k` in a list of object members. -/
def lookupMember : List (String × Value) → String → Option Value
  | [], _ => none
  | m :: ms, k => if m.1 = k then some m.2 else lookupMember ms k

/-- The value of the member `k` of a JSON object; a value that is not an object has no
members. -/
def Value.member (v : Value) (k : String) : Option Value :=
  match v with
  | .object ms => lookupMember ms k
  | _ => none

end json

namespace usecases

/-- One call of a use-case method on the file-backed repository, with the answer of the file
system to the write the call may make. -/
inductive Request where
  | getUserByID (id : Int)
  | createUser (user : entity.User) (w : os.WriteOutcome)
  | updateUser (user : entity.User) (w : os.WriteOutcome)
  | deleteUser (id : Int) (w : os.WriteOutcome)

/-- Whether the call is a `CreateUser`. -/
def Request.isCreate : Request → Bool
  | .createUser _ _ => true
  | _ => false

/-- The repository state a use-case call leaves behind, whether it returns a result, returns an
error or panics. -/
def Request.step (tc : time.Codec) (r : repo.User) (q : Request) : repo.User :=
  match q with
  | .getUserByID id => ((New (fileRepo tc .ok)).GetUserByID r id).2
  | .createUser user w => ((New (fileRepo tc w)).CreateUser r user).2
  | .updateUser user w => ((New (fileRepo tc w)).UpdateUser r user).2
  | .deleteUser id w => ((New (fileRepo tc w)).DeleteUser r id).2

/-- The repository state after a sequence of use-case calls, run one after another. -/
def runRequests (tc : time.Codec) (r : repo.User) (qs : List Request) : repo.User :=
  qs.foldl (Request.step tc) r

end usecases

namespace time

/-- A small codec on which the definitions can be evaluated: a time with no wall bits and no
zone, whose `ext` count lies in the years 0 to 9999 (counted in seconds), is written as the
decimal text of that count and read back from such a text; `MarshalJSON` refuses every other
time, and `UnmarshalJSON` every text that `strconv.Atoi` does. -/
def secondsCodec : Codec where
  MarshalJSON t :=
    if t.wall = 0 ∧ t.loc = none ∧ 0 ≤ t.ext ∧ t.ext < 315537897600 then
      .ok (strconv.Itoa t.ext)
    else .error (Error.lib "time" "Time.MarshalJSON: year outside of range [0,9999]")
  UnmarshalJSON s :=
    match strconv.Atoi s with
    | (v, none) => .ok { wall := 0, ext := v, loc := none }
    | (_, some _) => .error (Error.lib "time" "cannot parse as a time")

end time

namespace sample

/-- A backing file that holds the empty JSON object. -/
def emptyFile : os.File := some (.object [])

/-- The repository `New` builds from `emptyFile`: an empty cache and the counter 0. -/
def emptyRepo : repo.User := { f := emptyFile, cache := repo.userList.empty, inc := 0 }

/-- A user as a caller passes it to `Create`: the ID field is not set. -/
def alice : entity.User :=
  { CreatedAt := { wall := 0, ext := 63000000000, loc := none }, DisplayName := "alice",
    Email := "alice@example.org", ID := 0 }

/-- A user that carries the ID 7. -/
def bob : entity.User :=
  { CreatedAt := { wall := 0, ext := 63000000001, loc := none }, DisplayName := "bob",
    Email := "bob@example.org", ID := 7 }

/-- A backing file whose only key is 9223372036854775806, one below the largest `int`. -/
def nearMaxFile : os.File := some (.object [("9223372036854775806", .object [])])

/-- The repository `New` builds from `nearMaxFile`: its counter is one below the largest
`int`. -/
def nearMaxRepo : repo.User :=
  { f := nearMaxFile,
    cache := repo.userList.mk
      ((∅ : AList (fun _ : String => entity.User)).insert "9223372036854775806"
        entity.User.zero),
    inc := 9223372036854775806 }

/-- A backing file whose only key is 9223372036854775807, the largest `int`. -/
def maxFile : os.File := some (.object [("9223372036854775807", .object [])])

/-- The repository `New` builds from `maxFile`: its counter is the largest `int`. -/
def maxRepo : repo.User :=
  { f := maxFile,
    cache := repo.userList.mk
      ((∅ : AList (fun _ : String => entity.User)).insert "9223372036854775807"
        entity.User.zero),
    inc := 9223372036854775807 }

/-- The error of a write that fails after the file was opened and truncated. -/
def diskFull : Error := Error.lib "os" "write: no space left on device"

/-- An error of a storage back end that is not "not found". -/
def timeout : Error := Error.lib "net" "i/o timeout"

/-- A repository without state whose every method returns the error `timeout`. -/
def brokenRepo : usecases.UserRepo Unit where
  GetByID := fun s _ => (.returned (entity.User.zero, some timeout), s)
  Create := fun s _ => (.returned (0, some timeout), s)
  Update := fun s _ => (.returned (some timeout), s)
  Delete := fun s _ => (.returned (some timeout), s)

/-- A backing file with a canonical key, a key with a sign and a key that is no number. -/
def mixedFile : os.File :=
  some (.object [("7", .object []), ("+12", .null), ("x", .object [("EMAIL", .string "q")])])

/-- The repository `New` builds from `mixedFile`: its counter is 12. -/
def mixedRepo : repo.User :=
  { f := mixedFile,
    cache := repo.userList.mk
      ((((∅ : AList (fun _ : String => entity.User)).insert "7" entity.User.zero).insert
        "+12" entity.User.zero).insert "x" { entity.User.zero with Email := "q" }),
    inc := 12 }

/-- A backing file whose only key spells 9223372036854775808, one above the largest `int`. -/
def bigKeyFile : os.File := some (.object [("9223372036854775808", .object [])])

/-- A backing file whose only key is twenty digits 9 followed by the letter x. -/
def overflowKeyFile : os.File := some (.object [("99999999999999999999x", .object [])])

end sample

/-! ## Properties -/

namespace strconv

/-! ### `Atoi` reads back what `Itoa` writes -/

theorem digit_char (d : Nat) (hd : d < 10) :
    isDigit (Char.ofNat (48 + d)) = true ∧ (Char.ofNat (48 + d)).toNat - 48 = d ∧
      Char.ofNat (48 + d) ≠ '-' ∧ Char.ofNat (48 + d) ≠ '+' := by
  interval_cases d <;> decide

theorem foldr_digitsRev (fuel : Nat) : ∀ n, n < fuel →
    (digitsRev fuel n).foldr (fun c acc => digitStep acc c) (some 0) = some n := by
  induction fuel with
  | zero =>
    intro n hn
    omega
  | succ fuel ih =>
    intro n hn
    have hd := digit_char (n % 10) (Nat.mod_lt _ (by decide))
    have h2 := hd.2.1
    unfold digitsRev
    by_cases h0 : n / 10 = 0
    · rw [if_pos h0, List.foldr_cons, List.foldr_nil]
      simp only [digitStep, hd.1, h2, if_true]
      congr 1
      omega
    · have hlt : n / 10 < fuel := by omega
      rw [if_neg h0, List.foldr_cons, ih _ hlt]
      simp only [digitStep, hd.1, h2, if_true]
      congr 1
      omega

theorem digitsRev_no_sign (fuel : Nat) : ∀ n, ∀ c ∈ digitsRev fuel n, c ≠ '-' ∧ c ≠ '+' := by
  induction fuel with
  | zero =>
    intro n c hc
    simp [digitsRev] at hc
  | succ fuel ih =>
    intro n c hc
    have hd := digit_char (n % 10) (Nat.mod_lt _ (by decide))
    unfold digitsRev at hc
    rcases List.mem_cons.mp hc with h | h
    · rw [h]
      exact hd.2.2
    · by_cases h0 : n / 10 = 0
      · simp [h0] at h
      · simp only [h0, if_false] at h
        exact ih _ c h

theorem digits_ne_nil (n : Nat) : digits n ≠ [] := by
  unfold digits digitsRev
  simp

theorem parseDigits_digits (n : Nat) : parseDigits (digits n) = some n := by
  obtain ⟨c, cs, hd⟩ := List.exists_cons_of_ne_nil (digits_ne_nil n)
  have hfold : (digits n).foldl digitStep (some 0) = some n := by
    unfold digits
    rw [List.foldl_reverse]
    exact foldr_digitsRev (n + 1) n (Nat.lt_succ_self n)
  rw [hd] at hfold ⊢
  exact hfold

/-! ### The loop of `ParseUint` -/

theorem foldl_uintStep_invalid (cs : List Char) : cs.foldl uintStep .invalid = .invalid := by
  induction cs with
  | nil => rfl
  | cons c cs ih => simpa [uintStep] using ih

theorem foldl_uintStep_overflow (cs : List Char) : cs.foldl uintStep .overflow = .overflow := by
  induction cs with
  | nil => rfl
  | cons c cs ih => simpa [uintStep] using ih

theorem foldl_digitStep_none (cs : List Char) : cs.foldl digitStep none = none := by
  induction cs with
  | nil => rfl
  | cons c cs ih => simpa [digitStep] using ih

theorem le_leadingValue (cs : List Char) : ∀ a, a ≤ leadingValue a cs := by
  induction cs with
  | nil => intro a; simp [leadingValue]
  | cons c cs ih =>
    intro a
    unfold leadingValue
    split
    · have := ih (a * 10 + (c.toNat - 48))
      omega
    · exact le_refl a

/-- The loop of `ParseUint` in terms of the digits the text starts with. -/
theorem foldl_uintStep_eq (cs : List Char) : ∀ a, a < 18446744073709551616 →
    cs.foldl uintStep (.value a) =
      if 18446744073709551616 ≤ leadingValue a cs then .overflow
      else if cs.all isDigit then .value (leadingValue a cs) else .invalid := by
  induction cs with
  | nil =>
    intro a ha
    have h : ¬ (18446744073709551616 ≤ a) := by omega
    simp [leadingValue, h]
  | cons c cs ih =>
    intro a ha
    rw [List.foldl_cons]
    by_cases hd : isDigit c = true
    · have hmono := le_leadingValue cs (a * 10 + (c.toNat - 48))
      simp only [leadingValue, hd, if_true, List.all_cons, Bool.true_and]
      by_cases h1 : 1844674407370955162 ≤ a
      · have h2 : 18446744073709551616 ≤ leadingValue (a * 10 + (c.toNat - 48)) cs := by omega
        simp only [uintStep, hd, if_true, h1, foldl_uintStep_overflow, h2]
      · by_cases h3 : 18446744073709551615 < a * 10 + (c.toNat - 48)
        · have h2 : 18446744073709551616 ≤ leadingValue (a * 10 + (c.toNat - 48)) cs := by
            omega
          simp only [uintStep, hd, if_true, h1, if_false, h3, foldl_uintStep_overflow, h2]
        · simp only [uintStep, hd, if_true, h1, if_false, h3]
          exact ih _ (by omega)
    · have h : ¬ (18446744073709551616 ≤ a) := by omega
      simp only [uintStep, hd, leadingValue, List.all_cons]
      simp [foldl_uintStep_invalid, h]

/-- The unbounded value of a run of digits in terms of the digits the text starts with. -/
theorem foldl_digitStep_eq (cs : List Char) : ∀ a,
    cs.foldl digitStep (some a) = if cs.all isDigit then some (leadingValue a cs) else none := by
  induction cs with
  | nil =>
    intro a
    simp [leadingValue]
  | cons c cs ih =>
    intro a
    rw [List.foldl_cons]
    by_cases hd : isDigit c = true
    · simp only [digitStep, hd, if_true, leadingValue, List.all_cons, Bool.true_and]
      exact ih _
    · simp only [digitStep, hd, List.all_cons]
      simp [foldl_digitStep_none]

theorem parseDigits_eq (cs : List Char) :
    parseDigits cs = if cs ≠ [] ∧ cs.all isDigit = true then some (leadingValue 0 cs)
      else none := by
  cases cs with
  | nil => simp [parseDigits]
  | cons c cs =>
    unfold parseDigits
    rw [foldl_digitStep_eq]
    simp

theorem ParseUint_eq (cs : List Char) :
    ParseUint cs = if cs = [] then .invalid
      else if 18446744073709551616 ≤ leadingValue 0 cs then .overflow
      else if cs.all isDigit then .value (leadingValue 0 cs) else .invalid := by
  cases cs with
  | nil => simp [ParseUint]
  | cons c cs =>
    unfold ParseUint
    rw [foldl_uintStep_eq _ 0 (by decide)]
    simp

theorem ParseUint_of_parseDigits {cs : List Char} {n : Nat} (h : parseDigits cs = some n)
    (hn : n < 18446744073709551616) : ParseUint cs = .value n := by
  rw [parseDigits_eq] at h
  rw [ParseUint_eq]
  split at h
  · rename_i hc
    have hv : leadingValue 0 cs = n := Option.some.inj h
    have h2 : ¬ (18446744073709551616 ≤ leadingValue 0 cs) := by omega
    simp only [hc.1, if_false, h2, hc.2, if_true]
    rw [hv]
  · exact absurd h (by simp)

/-- `Atoi` reads back every `int` that `Itoa` wrote, without error. -/
theorem Atoi_Itoa (i : Int) (h : goint.InRange i) : Atoi (Itoa i) = (i, none) := by
  unfold goint.InRange goint.minInt goint.maxInt at h
  cases i with
  | ofNat n =>
    have hp := parseDigits_digits n
    obtain ⟨c, cs, hd⟩ := List.exists_cons_of_ne_nil (digits_ne_nil n)
    have hc : c ≠ '-' ∧ c ≠ '+' := by
      apply digitsRev_no_sign (n + 1) n c
      have hmem : c ∈ digits n := by
        rw [hd]
        exact List.mem_cons_self _ _
      unfold digits at hmem
      exact List.mem_reverse.mp hmem
    have hs : splitSign (digits n) = (false, digits n) := by
      rw [hd]
      simp only [splitSign, if_neg hc.1, if_neg hc.2]
    have hn : ¬ (9223372036854775808 ≤ n) := by
      simp only [Int.ofNat_eq_coe] at h
      omega
    have hu := ParseUint_of_parseDigits hp (by omega)
    unfold Atoi ParseInt Itoa
    simp only [hs, hu, Bool.false_eq_true, ↓reduceIte]
    simp only [hn, ↓reduceIte, Int.ofNat_eq_coe]
  | negSucc n =>
    have hp := parseDigits_digits (n + 1)
    have hn : ¬ (9223372036854775808 < n + 1) := by
      have h1 := h.1
      simp only [Int.negSucc_eq] at h1
      omega
    have hu := ParseUint_of_parseDigits hp (by omega)
    unfold Atoi ParseInt Itoa
    simp only [splitSign, ↓reduceIte, hu]
    simp only [hn, ↓reduceIte]
    rfl

/-- Different `int` values have different decimal texts. -/
theorem Itoa_injective {i j : Int} (hi : goint.InRange i) (hj : goint.InRange j)
    (h : Itoa i = Itoa j) : i = j := by
  have h1 := Atoi_Itoa i hi
  rw [h, Atoi_Itoa j hj] at h1
  exact (congrArg Prod.fst h1).symm

end strconv

namespace repo

/-! ### Steps of the methods -/

theorem Create_returned_ok {tc : time.Codec} {w : os.WriteOutcome} {r r1 : User}
    {u : entity.User} {id : Int} (h : r.Create tc w u = (.returned (id, none), r1)) :
    ∃ m buf, r.cache = userList.mk m ∧ id = goint.wrap (r.inc + 1) ∧
      json.Marshal tc { Increment := id, List := userList.mk (m.insert (strconv.Itoa id) u) }
        = .ok buf ∧
      w = os.WriteOutcome.ok ∧
      r1 = { f := some buf, cache := userList.mk (m.insert (strconv.Itoa id) u), inc := id } := by
  unfold User.Create at h
  cases hc : r.cache with
  | nil => simp [hc, userList.assign] at h
  | mk m =>
    simp only [hc, userList.assign] at h
    split at h
    · simp at h
    · rename_i buf hm
      cases w with
      | fail err left => simp [os.WriteFile] at h
      | ok =>
        simp only [os.WriteFile, Prod.mk.injEq, Outcome.returned.injEq, and_true] at h
        obtain ⟨hid, hr⟩ := h
        subst hid
        exact ⟨m, buf, rfl, rfl, hm, rfl, hr.symm⟩

theorem New_emptyFile (tc : time.Codec) : New tc sample.emptyFile = .ok sample.emptyRepo := rfl

theorem GetByID_state (r : User) (id : Int) : (r.GetByID id).2 = r := by
  unfold User.GetByID
  split <;> rfl

theorem Create_inc (tc : time.Codec) (w : os.WriteOutcome) (r : User) (u : entity.User) :
    (r.Create tc w u).2.inc = goint.wrap (r.inc + 1) := by
  obtain ⟨f, cache, inc⟩ := r
  unfold User.Create
  cases cache with
  | nil => rfl
  | mk m =>
    simp only [userList.assign]
    split
    · rfl
    · cases w <;> rfl

theorem Create_cache (tc : time.Codec) (w : os.WriteOutcome) (r : User) (u : entity.User) :
    (r.Create tc w u).2.cache =
      match r.cache.assign (strconv.Itoa (goint.wrap (r.inc + 1))) u with
      | some c => c
      | none => r.cache := by
  obtain ⟨f, cache, inc⟩ := r
  unfold User.Create
  cases cache with
  | nil => rfl
  | mk m =>
    simp only [userList.assign]
    split
    · rfl
    · cases w <;> rfl

theorem Update_inc (tc : time.Codec) (w : os.WriteOutcome) (r : User) (u : entity.User) :
    (r.Update tc w u).2.inc = r.inc := by
  obtain ⟨f, cache, inc⟩ := r
  unfold User.Update
  cases cache with
  | nil => rfl
  | mk m =>
    simp only [userList.assign]
    split
    · rfl
    · cases w <;> rfl

theorem Update_cache (tc : time.Codec) (w : os.WriteOutcome) (r : User) (u : entity.User) :
    (r.Update tc w u).2.cache =
      match r.cache.assign (strconv.Itoa u.ID) u with
      | some c => c
      | none => r.cache := by
  obtain ⟨f, cache, inc⟩ := r
  unfold User.Update
  cases cache with
  | nil => rfl
  | mk m =>
    simp only [userList.assign]
    split
    · rfl
    · cases w <;> rfl

theorem Delete_inc (tc : time.Codec) (w : os.WriteOutcome) (r : User) (id : Int) :
    (r.Delete tc w id).2.inc = r.inc := by
  unfold User.Delete
  simp only
  split
  · rfl
  · cases w <;> rfl

theorem Delete_cache (tc : time.Codec) (w : os.WriteOutcome) (r : User) (id : Int) :
    (r.Delete tc w id).2.cache = r.cache.delete (strconv.Itoa id) := by
  unfold User.Delete
  simp only
  split
  · rfl
  · cases w <;> rfl

theorem deletes_inc (tc : time.Codec) (ds : List (Int × os.WriteOutcome)) (r : User) :
    (r.deletes tc ds).inc = r.inc := by
  induction ds generalizing r with
  | nil => rfl
  | cons d ds ih =>
    simp only [User.deletes, List.foldl_cons] at ih ⊢
    rw [ih, Delete_inc]

theorem wrap_of_inRange {x : Int} (h : goint.InRange x) : goint.wrap x = x := by
  unfold goint.InRange goint.minInt goint.maxInt at h
  unfold goint.wrap
  omega

theorem wrap_inRange (x : Int) : goint.InRange (goint.wrap x) := by
  unfold goint.InRange goint.minInt goint.maxInt goint.wrap
  omega

theorem index_delete_self (l : userList) (k : String) : (l.delete k).index k = none := by
  cases l with
  | nil => rfl
  | mk m => simp [userList.delete, userList.index, AList.lookup_erase]

theorem mem_keys_delete {l : userList} {k a : String} (h : a ∈ (l.delete k).keys) :
    a ∈ l.keys := by
  cases l with
  | nil => simp [userList.delete, userList.keys] at h
  | mk m =>
    simp only [userList.delete, userList.keys, AList.keys_erase] at h ⊢
    exact List.mem_of_mem_erase h

theorem mem_keys_assign {l c : userList} {k a : String} {u : entity.User}
    (hc : l.assign k u = some c) (h : a ∈ c.keys) : a = k ∨ a ∈ l.keys := by
  cases l with
  | nil => simp [userList.assign] at hc
  | mk m =>
    simp only [userList.assign, Option.some.injEq] at hc
    subst hc
    simp only [userList.keys, AList.keys_insert, List.mem_cons] at h ⊢
    rcases h with h | h
    · exact Or.inl h
    · exact Or.inr (List.mem_of_mem_erase h)

/-- C1 (amended): when `Create(u)` succeeds and returns `newID`, an immediately following
`GetByID(newID)` succeeds and returns exactly the record `u` that was passed in: the same
display name, email and creation time, and the ID field as `u` carried it (the repository
does not write `newID` into the record). -/
theorem C1_create_then_get (tc : time.Codec) (w : os.WriteOutcome) (r r1 : User)
    (u : entity.User) (newID : Int)
    (h : r.Create tc w u = (.returned (newID, none), r1)) :
    r1.GetByID newID = (.returned (u, none), r1) := by
  obtain ⟨m, buf, _, _, _, _, hr⟩ := Create_returned_ok h
  subst hr
  simp [User.GetByID, userList.index, AList.lookup_insert]

/-- C1 (witness): on the empty repository `Create` of a sample user succeeds, and the record is
read back. -/
theorem C1_create_then_get_witness :
    (sample.emptyRepo.Create time.secondsCodec .ok sample.alice).2.GetByID 1
      = (.returned (sample.alice, none),
          (sample.emptyRepo.Create time.secondsCodec .ok sample.alice).2) :=
  C1_create_then_get time.secondsCodec .ok sample.emptyRepo _ sample.alice 1 rfl

/-- C1 (counterexample): on the empty repository `Create` of a user whose ID field is 0 succeeds
and returns 1, and `GetByID(1)` then returns a record whose ID field is still 0, not 1. -/
theorem C1_id_not_populated :
    (sample.emptyRepo.Create time.secondsCodec .ok sample.alice).1 = .returned (1, none) ∧
    ((sample.emptyRepo.Create time.secondsCodec .ok sample.alice).2.GetByID 1).1
      = .returned (sample.alice, none) ∧
    sample.alice.ID = 0 ∧ sample.alice.ID ≠ 1 := by
  refine ⟨by decide, by decide, by decide, by decide⟩

/-! ### C2: the document that is written -/

theorem Update_returned_ok {tc : time.Codec} {w : os.WriteOutcome} {r r1 : User}
    {u : entity.User} (h : r.Update tc w u = (.returned none, r1)) :
    ∃ m buf, r.cache = userList.mk m ∧
      json.Marshal tc
        { Increment := r.inc, List := userList.mk (m.insert (strconv.Itoa u.ID) u) } = .ok buf ∧
      w = os.WriteOutcome.ok ∧
      r1 = { f := some buf, cache := userList.mk (m.insert (strconv.Itoa u.ID) u),
             inc := r.inc } := by
  unfold User.Update at h
  cases hc : r.cache with
  | nil => simp [hc, userList.assign] at h
  | mk m =>
    simp only [hc, userList.assign] at h
    split at h
    · simp at h
    · rename_i buf hm
      cases w with
      | fail err left => simp [os.WriteFile] at h
      | ok =>
        simp only [os.WriteFile, Prod.mk.injEq, true_and] at h
        exact ⟨m, buf, rfl, hm, rfl, h.symm⟩

theorem Delete_returned_ok {tc : time.Codec} {w : os.WriteOutcome} {r r1 : User}
    {id : Int} (h : r.Delete tc w id = (.returned none, r1)) :
    ∃ buf,
      json.Marshal tc
        { Increment := r.inc, List := r.cache.delete (strconv.Itoa id) } = .ok buf ∧
      w = os.WriteOutcome.ok ∧
      r1 = { f := some buf, cache := r.cache.delete (strconv.Itoa id), inc := r.inc } := by
  unfold User.Delete at h
  simp only at h
  split at h
  · simp at h
  · rename_i buf hm
    cases w with
    | fail err left => simp [os.WriteFile] at h
    | ok =>
      simp only [os.WriteFile, Prod.mk.injEq, true_and] at h
      exact ⟨buf, hm, rfl, h.symm⟩

theorem returned_none_of_match {o : Outcome (Option Error)}
    (h : (match o with
      | .returned none => true
      | _ => false) = true) : o = .returned none := by
  split at h
  · rfl
  · exact absurd h (by simp)

theorem mutation_writes {tc : time.Codec} {r : User} {c : Call}
    (h : c.mutationSucceeds tc r = true) :
    ∃ buf, (Call.step tc r c).2.f = some buf ∧
      json.Marshal tc
        { Increment := (Call.step tc r c).2.inc, List := (Call.step tc r c).2.cache } = .ok buf := by
  cases c with
  | getByID id => simp [Call.mutationSucceeds] at h
  | create u w =>
    simp only [Call.mutationSucceeds, Option.isSome_iff_exists] at h
    obtain ⟨id, hid⟩ := h
    have hret : (r.Create tc w u).1 = .returned (id, none) := by
      revert hid
      generalize (r.Create tc w u).1 = o
      intro hid
      unfold createdID at hid
      split at hid
      · simp only [Option.some.injEq] at hid
        rw [hid]
      · exact absurd hid (by simp)
    have hpair : r.Create tc w u = (.returned (id, none), (r.Create tc w u).2) := by
      rw [← hret]
    obtain ⟨m, buf, _, _, hm, _, hr1⟩ := Create_returned_ok hpair
    refine ⟨buf, ?_, ?_⟩
    · simp only [Call.step]
      rw [hr1]
    · simp only [Call.step]
      rw [hr1]
      exact hm
  | update u w =>
    simp only [Call.mutationSucceeds] at h
    have hret := returned_none_of_match h
    have hpair : r.Update tc w u = (.returned none, (r.Update tc w u).2) := by
      rw [← hret]
    obtain ⟨m, buf, _, hm, _, hr1⟩ := Update_returned_ok hpair
    refine ⟨buf, ?_, ?_⟩
    · simp only [Call.step]
      rw [hr1]
    · simp only [Call.step]
      rw [hr1]
      exact hm
  | delete id w =>
    simp only [Call.mutationSucceeds] at h
    have hret := returned_none_of_match h
    have hpair : r.Delete tc w id = (.returned none, (r.Delete tc w id).2) := by
      rw [← hret]
    obtain ⟨buf, hm, _, hr1⟩ := Delete_returned_ok hpair
    refine ⟨buf, ?_, ?_⟩
    · simp only [Call.step]
      rw [hr1]
    · simp only [Call.step]
      rw [hr1]
      exact hm

theorem Marshal_ok {tc : time.Codec} {d : userDAO} {buf : json.Value}
    (h : json.Marshal tc d = .ok buf) :
    ∃ l, json.marshalList tc d.List = .ok l ∧
      buf = .object [("increment", .number (strconv.Itoa d.Increment)), ("list", l)] := by
  unfold json.Marshal at h
  split at h
  · exact absurd h (by simp)
  · rename_i l hl
    simp only [Except.ok.injEq] at h
    exact ⟨l, hl, h.symm⟩

theorem decodeString_saved (v : json.Value) (cur : String) (x : Error) :
    (json.decodeString v cur (some x)).2 = some x := by
  cases v <;> rfl

theorem decodeField_saved {tc : time.Codec} {st st1 : entity.User × Option Error}
    {m : String × json.Value} {x : Error} (hst : st.2 = some x)
    (h : json.decodeField tc st m = .ok st1) : st1.2 = some x := by
  unfold json.decodeField at h
  split at h
  · split at h
    · exact absurd h (by simp)
    · simp only [Except.ok.injEq] at h
      rw [← h]
      exact hst
  · split at h
    · simp only [Except.ok.injEq] at h
      rw [← h, hst]
      exact decodeString_saved _ _ _
    · split at h
      · simp only [Except.ok.injEq] at h
        rw [← h, hst]
        exact decodeString_saved _ _ _
      · simp only [Except.ok.injEq] at h
        rw [← h]
        exact hst

theorem decodeFields_saved {tc : time.Codec} (ms : List (String × json.Value)) :
    ∀ {st st1 : entity.User × Option Error} {x : Error}, st.2 = some x →
      json.decodeFields tc ms st = .ok st1 → st1.2 = some x := by
  induction ms with
  | nil =>
    intro st st1 x hst h
    simp only [json.decodeFields, Except.ok.injEq] at h
    rw [← h]
    exact hst
  | cons m ms ih =>
    intro st st1 x hst h
    unfold json.decodeFields at h
    split at h
    · exact absurd h (by simp)
    · rename_i st2 h2
      exact ih (decodeField_saved hst h2) h

theorem decodeUser_saved {tc : time.Codec} {v : json.Value} {x : Error}
    {st : entity.User × Option Error} (h : json.decodeUser tc v (some x) = .ok st) :
    st.2 = some x := by
  cases v with
  | object ms => exact decodeFields_saved ms rfl h
  | null =>
    simp only [json.decodeUser, Except.ok.injEq] at h
    rw [← h]
  | _ =>
    simp only [json.decodeUser, json.saveError, Except.ok.injEq] at h
    rw [← h]

/-- Once a type error is saved, decoding the rest of the document ends with an error. -/
theorem decodeEntries_saved (tc : time.Codec) (ms : List (String × json.Value)) :
    ∀ (m : AList (fun _ : String => entity.User)) (x : Error),
      ∃ e, (json.decodeEntries tc ms m (some x)).2 = some e := by
  induction ms with
  | nil =>
    intro m x
    exact ⟨x, rfl⟩
  | cons kv ms ih =>
    intro m x
    unfold json.decodeEntries
    cases hd : json.decodeUser tc kv.2 (some x) with
    | error e => exact ⟨e, rfl⟩
    | ok st =>
      simp only
      rw [decodeUser_saved hd]
      exact ih _ x

/-- The constructor returns an error for every document that starts with a member whose value
is a number. -/
theorem New_number_member (tc : time.Codec) (k lit : String)
    (ms : List (String × json.Value)) :
    ∃ e, New tc (some (.object ((k, .number lit) :: ms))) = .error e := by
  obtain ⟨e, he⟩ := decodeEntries_saved tc ms
    ((∅ : AList (fun _ : String => entity.User)).insert k entity.User.zero)
    (json.typeError "number" "entity.User")
  refine ⟨e, ?_⟩
  have hd : (json.Decode tc (some (.object ((k, .number lit) :: ms))) userList.empty).2
      = some e := by
    simp only [json.Decode, userList.empty, json.decodeEntries, json.decodeUser, json.saveError,
      json.Value.kind]
    exact he
  unfold New User.getCache
  simp only [hd]

/-- The constructor returns an error on the file that any successful `Create`, `Update` or
`Delete` leaves behind, whatever the state of the repository was. -/
theorem New_rejects_mutation_output {tc : time.Codec} {r : User} {c : Call}
    (hc : c.mutationSucceeds tc r = true) :
    ∃ e, New tc (Call.step tc r c).2.f = .error e := by
  obtain ⟨buf, hf, hm⟩ := mutation_writes hc
  obtain ⟨l, _, hbuf⟩ := Marshal_ok hm
  rw [hf, hbuf]
  exact New_number_member tc _ _ _

/-- C2 (the round trip at a concrete input): on the empty repository `Create` succeeds and
writes the document with the members `increment` and `list`; `New` on the file so written
returns an error instead of a repository with the same cache: `getCache` decodes the whole
document as the key-to-user map and meets the number under `increment`. -/
theorem C2_new_rejects_written_document :
    (sample.emptyRepo.Create time.secondsCodec .ok sample.alice).1 = .returned (1, none) ∧
    (sample.emptyRepo.Create time.secondsCodec .ok sample.alice).2.f
      = some (.object [("increment", .number "1"),
          ("list", .object [("1", .object [("created_at", .string "63000000000"),
            ("display_name", .string "alice"), ("email", .string "alice@example.org")])])]) ∧
    New time.secondsCodec (sample.emptyRepo.Create time.secondsCodec .ok sample.alice).2.f
      = .error (json.typeError "number" "entity.User") := by
  refine ⟨by decide, rfl, rfl⟩

/-! ### C3: the key bound -/

/-- C3 (amended): the key bound (every cache key is the decimal text of a positive integer not
above the counter) is preserved by `GetByID` and by `Delete` with any argument, by `Create`
when the counter is at least 0 and below the largest `int`, and by `Update` when the ID of
the user lies between 1 and the counter; in each case whether the call succeeds or fails. -/
theorem C3_key_bound_preserved (tc : time.Codec) (r : User) (hr : KeyBound r) :
    (∀ id, KeyBound (r.GetByID id).2) ∧
    (∀ w id, KeyBound (r.Delete tc w id).2) ∧
    (∀ w u, 0 ≤ r.inc → r.inc < goint.maxInt → KeyBound (r.Create tc w u).2) ∧
    (∀ w u, 1 ≤ u.ID → u.ID ≤ r.inc → KeyBound (r.Update tc w u).2) := by
  refine ⟨?_, ?_, ?_, ?_⟩
  · intro id
    rw [GetByID_state]
    exact hr
  · intro w id k hk
    rw [Delete_cache] at hk
    rw [Delete_inc]
    exact hr k (mem_keys_delete hk)
  · intro w u h0 hmax k hk
    have hw : goint.wrap (r.inc + 1) = r.inc + 1 := by
      apply wrap_of_inRange
      unfold goint.InRange goint.minInt
      unfold goint.maxInt at hmax ⊢
      omega
    rw [Create_cache, hw] at hk
    rw [Create_inc, hw]
    cases hc : r.cache.assign (strconv.Itoa (r.inc + 1)) u with
    | none =>
      rw [hc] at hk
      obtain ⟨n, hn0, hn1, hn2⟩ := hr k hk
      exact ⟨n, hn0, by omega, hn2⟩
    | some c =>
      rw [hc] at hk
      rcases mem_keys_assign hc hk with h | h
      · exact ⟨r.inc + 1, by omega, le_refl _, h⟩
      · obtain ⟨n, hn0, hn1, hn2⟩ := hr k h
        exact ⟨n, hn0, by omega, hn2⟩
  · intro w u h1 h2 k hk
    rw [Update_cache] at hk
    rw [Update_inc]
    cases hc : r.cache.assign (strconv.Itoa u.ID) u with
    | none =>
      rw [hc] at hk
      exact hr k hk
    | some c =>
      rw [hc] at hk
      rcases mem_keys_assign hc hk with h | h
      · exact ⟨u.ID, by omega, h2, h⟩
      · exact hr k h

/-- C3 (witness): a repository that holds one user under key 1 with counter 1 satisfies the
key bound, and so does the state after another `Create`. -/
theorem C3_key_bound_preserved_witness :
    KeyBound ((sample.emptyRepo.Create time.secondsCodec .ok sample.alice).2.Create
      time.secondsCodec .ok sample.alice).2 :=
  (C3_key_bound_preserved time.secondsCodec
    (sample.emptyRepo.Create time.secondsCodec .ok sample.alice).2
    ((C3_key_bound_preserved time.secondsCodec sample.emptyRepo
      (by intro k hk; simp [sample.emptyRepo, userList.empty, userList.keys] at hk)).2.2.1
      .ok sample.alice (by decide) (by decide))).2.2.1 .ok sample.alice (by decide) (by decide)

/-- C3 (counterexample): the empty repository with counter 0 satisfies the key bound, and after
`Update` of a user with ID 7, called directly, the cache holds the key 7 above the counter 0:
the key bound no longer holds.  Likewise the repository with the single key
9223372036854775807 and the counter at the largest `int` satisfies the key bound, and after
`Create` the counter is negative while the cache is not empty. -/
theorem C3_key_bound_broken :
    KeyBound sample.emptyRepo ∧
    ¬ KeyBound (sample.emptyRepo.Update time.secondsCodec .ok sample.bob).2 ∧
    KeyBound sample.maxRepo ∧
    ¬ KeyBound (sample.maxRepo.Create time.secondsCodec .ok sample.alice).2 := by
  refine ⟨?_, ?_, ?_, ?_⟩
  · intro k hk
    simp [sample.emptyRepo, userList.empty, userList.keys] at hk
  · intro h
    have hk : "7" ∈ (sample.emptyRepo.Update time.secondsCodec .ok sample.bob).2.cache.keys := by
      decide
    obtain ⟨n, hn0, hn1, _⟩ := h "7" hk
    have hinc : (sample.emptyRepo.Update time.secondsCodec .ok sample.bob).2.inc = 0 := by
      decide
    omega
  · intro k hk
    have hkeys : sample.maxRepo.cache.keys = ["9223372036854775807"] := by decide
    rw [hkeys, List.mem_singleton] at hk
    exact ⟨9223372036854775807, by decide, by decide, by rw [hk]; decide⟩
  · intro h
    have hk : "9223372036854775807"
        ∈ (sample.maxRepo.Create time.secondsCodec .ok sample.alice).2.cache.keys := by
      decide
    obtain ⟨n, hn0, hn1, _⟩ := h "9223372036854775807" hk
    have hinc : (sample.maxRepo.Create time.secondsCodec .ok sample.alice).2.inc
        = -9223372036854775808 := by
      decide
    omega

/-! ### C4: consecutive creates -/

/-- C4 (amended): two consecutive successful `Create` calls on the same repository, with any
sequence of `Delete` calls between them, return different IDs; the second ID is the first
plus one whenever the first is below the largest `int`, and at the largest `int` the counter
wraps around and the second ID is the smallest `int`. -/
theorem C4_consecutive_creates (tc : time.Codec) (w1 w2 : os.WriteOutcome) (r r1 r3 : User)
    (u1 u2 : entity.User) (ds : List (Int × os.WriteOutcome)) (id1 id2 : Int)
    (h1 : r.Create tc w1 u1 = (.returned (id1, none), r1))
    (h2 : (r1.deletes tc ds).Create tc w2 u2 = (.returned (id2, none), r3)) :
    id2 ≠ id1 ∧ (id1 < goint.maxInt → id2 = id1 + 1) ∧
      (id1 = goint.maxInt → id2 = goint.minInt) := by
  obtain ⟨m, buf, _, hid1, _, _, hr1⟩ := Create_returned_ok h1
  obtain ⟨m2, buf2, _, hid2, _, _, _⟩ := Create_returned_ok h2
  have hinc : (r1.deletes tc ds).inc = id1 := by
    rw [deletes_inc, hr1]
  rw [hinc] at hid2
  have hrange := wrap_inRange (r.inc + 1)
  rw [← hid1] at hrange
  unfold goint.InRange goint.minInt goint.maxInt at hrange
  unfold goint.wrap at hid2
  unfold goint.maxInt goint.minInt
  omega

/-- C4 (witness): on the empty repository, `Create`, then `Delete(1)`, then `Create` return 1
and then 2. -/
theorem C4_consecutive_creates_witness :
    (2 : Int) ≠ 1 ∧ ((1 : Int) < goint.maxInt → (2 : Int) = 1 + 1) ∧
      ((1 : Int) = goint.maxInt → (2 : Int) = goint.minInt) :=
  C4_consecutive_creates time.secondsCodec .ok .ok sample.emptyRepo
    (sample.emptyRepo.Create time.secondsCodec .ok sample.alice).2
    ((((sample.emptyRepo.Create time.secondsCodec .ok sample.alice).2).deletes
      time.secondsCodec [(1, .ok)]).Create time.secondsCodec .ok sample.bob).2
    sample.alice sample.bob [(1, .ok)] 1 2 rfl rfl

/-- C4 (counterexample): a backing file with the single key 9223372036854775806 gives a
repository whose counter is one below the largest `int`; two consecutive successful `Create`
calls on it return 9223372036854775807 and then -9223372036854775808, which is not the first
ID plus one. -/
theorem C4_second_id_wraps :
    New time.secondsCodec sample.nearMaxFile = .ok sample.nearMaxRepo ∧
    (sample.nearMaxRepo.Create time.secondsCodec .ok sample.alice).1
      = .returned (9223372036854775807, none) ∧
    ((sample.nearMaxRepo.Create time.secondsCodec .ok sample.alice).2.Create
      time.secondsCodec .ok sample.bob).1 = .returned (-9223372036854775808, none) ∧
    (-9223372036854775808 : Int) ≠ 9223372036854775807 + 1 := by
  refine ⟨rfl, by decide, by decide, by decide⟩

/-! ### C5: the counter -/

theorem createdID_eq_some {tc : time.Codec} {w : os.WriteOutcome} {r : User} {u : entity.User}
    {id : Int} (h : createdID (r.Create tc w u).1 = some id) : id = goint.wrap (r.inc + 1) := by
  have hret : (r.Create tc w u).1 = .returned (id, none) := by
    revert h
    generalize (r.Create tc w u).1 = o
    intro h
    unfold createdID at h
    split at h
    · simp only [Option.some.injEq] at h
      rw [h]
    · exact absurd h (by simp)
  have hpair : r.Create tc w u = (.returned (id, none), (r.Create tc w u).2) := by
    rw [← hret]
  obtain ⟨_, _, _, hid, _⟩ := Create_returned_ok hpair
  exact hid

theorem step_inc (tc : time.Codec) (r : User) (c : Call) :
    (Call.step tc r c).2.inc = if c.isCreate then goint.wrap (r.inc + 1) else r.inc := by
  cases c with
  | getByID id => simp [Call.step, Call.isCreate, GetByID_state]
  | create u w => simp [Call.step, Call.isCreate, Create_inc]
  | update u w => simp [Call.step, Call.isCreate, Update_inc]
  | delete id w => simp [Call.step, Call.isCreate, Delete_inc]

theorem step_id {tc : time.Codec} {r : User} {c : Call} {id : Int}
    (h : (Call.step tc r c).1 = some id) : c.isCreate = true ∧ id = goint.wrap (r.inc + 1) := by
  cases c with
  | getByID i => simp [Call.step] at h
  | create u w => exact ⟨rfl, createdID_eq_some h⟩
  | update u w => simp [Call.step] at h
  | delete i w => simp [Call.step] at h

theorem runCalls_ids (tc : time.Codec) (cs : List Call) (r : User) (hr : goint.InRange r.inc)
    (hroom : r.inc + (cs.countP Call.isCreate : Nat) ≤ goint.maxInt) :
    (runCalls tc r cs).inc = r.inc + (cs.countP Call.isCreate : Nat) ∧
    (∀ id ∈ returnedIDs tc r cs, r.inc < id) ∧
    (returnedIDs tc r cs).Pairwise (· < ·) := by
  induction cs generalizing r with
  | nil => simp [runCalls, returnedIDs]
  | cons c cs ih =>
    have hrun : runCalls tc r (c :: cs) = runCalls tc (Call.step tc r c).2 cs := rfl
    have hstep := step_inc tc r c
    have hr0 := hr
    unfold goint.InRange goint.minInt goint.maxInt at hr0
    unfold goint.maxInt at hroom
    by_cases hc : c.isCreate = true
    · have hcount : (c :: cs).countP Call.isCreate = cs.countP Call.isCreate + 1 := by
        rw [List.countP_cons]
        simp [hc]
      rw [hcount] at hroom ⊢
      push_cast at hroom ⊢
      have hw : goint.wrap (r.inc + 1) = r.inc + 1 := by
        apply wrap_of_inRange
        unfold goint.InRange goint.minInt goint.maxInt
        omega
      have hnext : (Call.step tc r c).2.inc = r.inc + 1 := by
        rw [hstep, if_pos hc, hw]
      have hr1 : goint.InRange (Call.step tc r c).2.inc := by
        rw [hnext]
        unfold goint.InRange goint.minInt goint.maxInt
        omega
      have hroom1 :
          (Call.step tc r c).2.inc + (cs.countP Call.isCreate : Nat) ≤ goint.maxInt := by
        rw [hnext]
        unfold goint.maxInt
        omega
      obtain ⟨ih1, ih2, ih3⟩ := ih (Call.step tc r c).2 hr1 hroom1
      refine ⟨?_, ?_, ?_⟩
      · rw [hrun, ih1, hnext]
        omega
      · intro id hid
        unfold returnedIDs at hid
        split at hid
        · rename_i id0 h0
          have h1 := (step_id h0).2
          rw [hw] at h1
          rcases List.mem_cons.mp hid with h | h
          · omega
          · have h2 := ih2 id h
            omega
        · have h2 := ih2 id hid
          omega
      · unfold returnedIDs
        split
        · rename_i id0 h0
          have h1 := (step_id h0).2
          rw [hw] at h1
          refine List.Pairwise.cons ?_ ih3
          intro id hid
          have h2 := ih2 id hid
          omega
        · exact ih3
    · have hcount : (c :: cs).countP Call.isCreate = cs.countP Call.isCreate := by
        rw [List.countP_cons]
        simp [hc]
      rw [hcount] at hroom ⊢
      have hnext : (Call.step tc r c).2.inc = r.inc := by
        rw [hstep, if_neg hc]
      have hnone : (Call.step tc r c).1 = none := by
        cases h : (Call.step tc r c).1 with
        | none => rfl
        | some id => exact absurd (step_id h).1 hc
      have hr1 : goint.InRange (Call.step tc r c).2.inc := by
        rw [hnext]
        exact hr
      have hroom1 :
          (Call.step tc r c).2.inc + (cs.countP Call.isCreate : Nat) ≤ goint.maxInt := by
        rw [hnext]
        unfold goint.maxInt
        omega
      obtain ⟨ih1, ih2, ih3⟩ := ih (Call.step tc r c).2 hr1 hroom1
      have hids : returnedIDs tc r (c :: cs) = returnedIDs tc (Call.step tc r c).2 cs := by
        rw [returnedIDs, hnone]
      rw [hids, hrun]
      refine ⟨?_, ?_, ih3⟩
      · rw [ih1, hnext]
      · intro id hid
        have h2 := ih2 id hid
        omega

/-- C5 (amended): `GetByID`, `Update` and `Delete` leave the counter unchanged and `Create`
raises it by exactly one, whether the call succeeds or fails, as long as the counter is below
the largest `int` (there `Create` wraps it around to the smallest `int`).  Consequently, in any
sequence of calls that does not take the counter past the largest `int`, the counter ends at
its start value plus the number of `Create` calls, and every ID a successful `Create` returns
is above the start value of the counter and strictly above every ID returned before it. -/
theorem C5_counter_never_decreases (tc : time.Codec) :
    (∀ (r : User) (id : Int), (r.GetByID id).2.inc = r.inc) ∧
    (∀ (w : os.WriteOutcome) (r : User) (u : entity.User), (r.Update tc w u).2.inc = r.inc) ∧
    (∀ (w : os.WriteOutcome) (r : User) (id : Int), (r.Delete tc w id).2.inc = r.inc) ∧
    (∀ (w : os.WriteOutcome) (r : User) (u : entity.User), goint.InRange r.inc →
      r.inc < goint.maxInt → (r.Create tc w u).2.inc = r.inc + 1) ∧
    (∀ (r : User) (cs : List Call), goint.InRange r.inc →
      r.inc + (cs.countP Call.isCreate : Nat) ≤ goint.maxInt →
        (runCalls tc r cs).inc = r.inc + (cs.countP Call.isCreate : Nat) ∧
        (∀ id ∈ returnedIDs tc r cs, r.inc < id) ∧
        (returnedIDs tc r cs).Pairwise (· < ·)) := by
  refine ⟨?_, ?_, ?_, ?_, ?_⟩
  · intro r id
    rw [GetByID_state]
  · intro w r u
    exact Update_inc tc w r u
  · intro w r id
    exact Delete_inc tc w r id
  · intro w r u hr hmax
    rw [Create_inc]
    apply wrap_of_inRange
    unfold goint.InRange goint.minInt goint.maxInt at hr ⊢
    unfold goint.maxInt at hmax
    omega
  · intro r cs hr hroom
    exact runCalls_ids tc cs r hr hroom

/-- C5 (witness): on the empty repository the calls `Create`, `Delete(1)`, `Create` (whose
write fails), `Create` return IDs that increase strictly. -/
theorem C5_counter_never_decreases_witness :
    (returnedIDs time.secondsCodec sample.emptyRepo
      [.create sample.alice .ok, .delete 1 .ok,
        .create sample.bob (.fail (Error.lib "os" "disk full") none),
        .create sample.bob .ok]).Pairwise (· < ·) :=
  ((C5_counter_never_decreases time.secondsCodec).2.2.2.2 sample.emptyRepo
    [.create sample.alice .ok, .delete 1 .ok,
      .create sample.bob (.fail (Error.lib "os" "disk full") none),
      .create sample.bob .ok] (by decide) (by decide)).2.2

/-- C5 (counterexample): a backing file with the single key 9223372036854775807 gives a
repository whose counter is the largest `int`; `Create` on it returns without error, leaves
the counter at the smallest `int`, below its value before the call, and the ID it returns is
below the counter it started from. -/
theorem C5_counter_wraps :
    New time.secondsCodec sample.maxFile = .ok sample.maxRepo ∧
    (sample.maxRepo.Create time.secondsCodec .ok sample.alice).1
      = .returned (-9223372036854775808, none) ∧
    (sample.maxRepo.Create time.secondsCodec .ok sample.alice).2.inc < sample.maxRepo.inc := by
  refine ⟨rfl, by decide, by decide⟩

/-! ### C6: delete, then get -/

/-- C6: after `Delete(id)`, whether the id was present and whether the call succeeded or
failed, an immediately following `GetByID(id)` fails with `entity.ErrNoID`. -/
theorem C6_delete_then_get (tc : time.Codec) (w : os.WriteOutcome) (r : User) (id : Int) :
    ((r.Delete tc w id).2.GetByID id).1 = .returned (entity.User.zero, some entity.ErrNoID) := by
  unfold User.GetByID
  rw [Delete_cache, index_delete_self]

end repo

namespace usecases

/-! ### C7: the existence check of the use-case layer -/

theorem GetUserByID_absent {σ : Type} (R : UserRepo σ) (s s1 : σ) (id : Int)
    (h : R.GetByID s id = (.returned (entity.User.zero, some entity.ErrNoID), s1)) :
    (UserUsecase.mk R).GetUserByID s id
      = (.returned (entity.User.zero, some entity.ErrNoID), s1) := by
  unfold UserUsecase.GetUserByID
  simp only [h]
  rfl

theorem fileRepo_GetByID_absent {r : repo.User} {id : Int}
    (h : r.cache.index (strconv.Itoa id) = none) :
    r.GetByID id = (.returned (entity.User.zero, some entity.ErrNoID), r) := by
  unfold repo.User.GetByID
  rw [h]

/-- C7: for an id that has no record, `UpdateUser` (with a user carrying that id) and
`DeleteUser(id)` each return exactly `entity.ErrNoID`, not wrapped, and leave the repository
state (cache, counter and backing file) unchanged.  They do not call `Update` or `Delete` of
the repository: the result is the same whatever those two methods would do. -/
theorem C7_existence_check (tc : time.Codec) (w : os.WriteOutcome) (r : repo.User)
    (user : entity.User) (id : Int)
    (huser : r.cache.index (strconv.Itoa user.ID) = none)
    (hid : r.cache.index (strconv.Itoa id) = none) :
    (New (fileRepo tc w)).UpdateUser r user = (.returned (some entity.ErrNoID), r) ∧
    (New (fileRepo tc w)).DeleteUser r id = (.returned (some entity.ErrNoID), r) ∧
    (∀ upd : repo.User → entity.User → Outcome (Option Error) × repo.User,
      (New { fileRepo tc w with Update := upd }).UpdateUser r user
        = (.returned (some entity.ErrNoID), r)) ∧
    (∀ del : repo.User → Int → Outcome (Option Error) × repo.User,
      (New { fileRepo tc w with Delete := del }).DeleteUser r id
        = (.returned (some entity.ErrNoID), r)) := by
  have hupd : ∀ upd : repo.User → entity.User → Outcome (Option Error) × repo.User,
      (New { fileRepo tc w with Update := upd }).UpdateUser r user
        = (.returned (some entity.ErrNoID), r) := by
    intro upd
    unfold UserUsecase.UpdateUser New
    rw [GetUserByID_absent _ r r user.ID (fileRepo_GetByID_absent huser)]
    rfl
  have hdel : ∀ del : repo.User → Int → Outcome (Option Error) × repo.User,
      (New { fileRepo tc w with Delete := del }).DeleteUser r id
        = (.returned (some entity.ErrNoID), r) := by
    intro del
    unfold UserUsecase.DeleteUser New
    rw [GetUserByID_absent _ r r id (fileRepo_GetByID_absent hid)]
    rfl
  exact ⟨hupd _, hdel _, hupd, hdel⟩

/-- C7 (witness): on the empty repository, `UpdateUser` of a user with ID 7 and `DeleteUser(3)`
are refused with `entity.ErrNoID`. -/
theorem C7_existence_check_witness :
    (New (fileRepo time.secondsCodec .ok)).UpdateUser sample.emptyRepo sample.bob
      = (.returned (some entity.ErrNoID), sample.emptyRepo) ∧
    (New (fileRepo time.secondsCodec .ok)).DeleteUser sample.emptyRepo 3
      = (.returned (some entity.ErrNoID), sample.emptyRepo) :=
  ⟨(C7_existence_check time.secondsCodec .ok sample.emptyRepo sample.bob 3 rfl rfl).1,
    (C7_existence_check time.secondsCodec .ok sample.emptyRepo sample.bob 3 rfl rfl).2.1⟩

end usecases

namespace repo

/-! ### C8, C9: `Update` and `Delete` on an absent id -/

theorem delete_absent {l : userList} {k : String} (h : l.index k = none) : l.delete k = l := by
  cases l with
  | nil => rfl
  | mk m =>
    simp only [userList.index, AList.lookup_eq_none, AList.mem_keys] at h
    simp only [userList.delete, userList.mk.injEq]
    apply AList.ext
    exact List.kerase_of_not_mem_keys h

/-- C8: `Update` at the repository is an unconditional upsert.  For a user `u` whose ID has no
cache entry, when the call gets as far as its file write (the assignment to the map and
`json.Marshal` go through) and `os.WriteFile` succeeds, `Update(u)` returns no error, and
`GetByID(u.ID)` on the state it leaves succeeds and returns `u`. -/
theorem C8_update_upserts (tc : time.Codec) (r : User) (u : entity.User) (cache1 : userList)
    (buf : json.Value)
    (_habsent : r.cache.index (strconv.Itoa u.ID) = none)
    (hassign : r.cache.assign (strconv.Itoa u.ID) u = some cache1)
    (hmarshal : json.Marshal tc { Increment := r.inc, List := cache1 } = .ok buf) :
    (r.Update tc .ok u).1 = .returned none ∧
    (r.Update tc .ok u).1 ≠ .returned (some entity.ErrNoID) ∧
    ((r.Update tc .ok u).2.GetByID u.ID).1 = .returned (u, none) := by
  have hup : r.Update tc .ok u
      = (.returned none, { f := some buf, cache := cache1, inc := r.inc }) := by
    unfold User.Update
    simp only [hassign, hmarshal, os.WriteFile]
  rw [hup]
  refine ⟨rfl, by simp, ?_⟩
  cases hc : r.cache with
  | nil => simp [hc, userList.assign] at hassign
  | mk m =>
    simp only [hc, userList.assign, Option.some.injEq] at hassign
    subst hassign
    simp [User.GetByID, userList.index, AList.lookup_insert]

/-- C8 (witness): `Update` of a user with ID 7 on the empty repository inserts the record. -/
theorem C8_update_upserts_witness :
    (sample.emptyRepo.Update time.secondsCodec .ok sample.bob).1 = .returned none ∧
    (sample.emptyRepo.Update time.secondsCodec .ok sample.bob).1
      ≠ .returned (some entity.ErrNoID) ∧
    ((sample.emptyRepo.Update time.secondsCodec .ok sample.bob).2.GetByID sample.bob.ID).1
      = .returned (sample.bob, none) :=
  C8_update_upserts time.secondsCodec sample.emptyRepo sample.bob _ _ rfl rfl rfl

/-- C9: `Delete` at the repository is a no-op on an absent id.  For an id with no cache
entry, when `json.Marshal` goes through and `os.WriteFile` succeeds, `Delete(id)` returns no
error and leaves the cache and the counter exactly as they were. -/
theorem C9_delete_absent_noop (tc : time.Codec) (r : User) (id : Int) (buf : json.Value)
    (habsent : r.cache.index (strconv.Itoa id) = none)
    (hmarshal : json.Marshal tc
      { Increment := r.inc, List := r.cache.delete (strconv.Itoa id) } = .ok buf) :
    (r.Delete tc .ok id).1 = .returned none ∧
    (r.Delete tc .ok id).2.cache = r.cache ∧
    (r.Delete tc .ok id).2.inc = r.inc := by
  refine ⟨?_, ?_, Delete_inc tc .ok r id⟩
  · unfold User.Delete
    simp only [hmarshal, os.WriteFile]
  · rw [Delete_cache, delete_absent habsent]

/-- C9 (witness): `Delete(5)` on a repository that holds a single user under key 1. -/
theorem C9_delete_absent_noop_witness :
    ((sample.emptyRepo.Create time.secondsCodec .ok sample.alice).2.Delete
      time.secondsCodec .ok 5).1 = .returned none ∧
    ((sample.emptyRepo.Create time.secondsCodec .ok sample.alice).2.Delete
      time.secondsCodec .ok 5).2.cache
      = (sample.emptyRepo.Create time.secondsCodec .ok sample.alice).2.cache ∧
    ((sample.emptyRepo.Create time.secondsCodec .ok sample.alice).2.Delete
      time.secondsCodec .ok 5).2.inc
      = (sample.emptyRepo.Create time.secondsCodec .ok sample.alice).2.inc :=
  C9_delete_absent_noop time.secondsCodec
    (sample.emptyRepo.Create time.secondsCodec .ok sample.alice).2 5 _ rfl rfl

/-! ### C10: the counter `New` computes -/

theorem numericValue_eq (k : String) :
    numericValue k = (strconv.parseDigits (strconv.splitSign k.data).2).map
      (fun (n : Nat) => if (strconv.splitSign k.data).1 = true then -(n : Int) else (n : Int)) := by
  unfold numericValue
  cases hk : k.data with
  | nil => simp [strconv.splitSign, strconv.parseDigits]
  | cons c rest =>
    simp only [strconv.splitSign]
    by_cases h1 : c = '-'
    · simp [h1]
    · by_cases h2 : c = '+'
      · simp [h1, h2]
      · simp [h1, h2]

theorem overflowsEarly_eq (k : String) :
    overflowsEarly k = (!(strconv.splitSign k.data).1 &&
      decide (18446744073709551616 ≤ strconv.leadingValue 0 (strconv.splitSign k.data).2)) := by
  unfold overflowsEarly
  cases hk : k.data with
  | nil => simp [strconv.splitSign, strconv.leadingValue]
  | cons c rest =>
    simp only [strconv.splitSign]
    by_cases h1 : c = '-'
    · simp [h1]
    · by_cases h2 : c = '+'
      · simp [h1, h2]
      · simp [h1, h2]

/-- What `Atoi` makes of a key, above 0, is the counted value of the key. -/
theorem Atoi_counted (k : String) : max 0 (strconv.Atoi k).1 = max 0 (countedValue k) := by
  unfold countedValue
  rw [overflowsEarly_eq, numericValue_eq, strconv.parseDigits_eq]
  unfold strconv.Atoi strconv.ParseInt
  rw [strconv.ParseUint_eq]
  generalize (strconv.splitSign k.data).1 = neg
  generalize (strconv.splitSign k.data).2 = body
  unfold goint.minInt goint.maxInt
  by_cases hnil : body = []
  · subst hnil
    cases neg <;> simp [strconv.leadingValue]
  · by_cases hov : 18446744073709551616 ≤ strconv.leadingValue 0 body
    · cases neg
      · simp [hnil, hov]
      · by_cases hall : body.all strconv.isDigit = true
        · simp [hnil, hov, hall]
        · simp [hnil, hov, hall]
    · by_cases hall : body.all strconv.isDigit = true
      · cases neg
        · by_cases hr : 9223372036854775808 ≤ strconv.leadingValue 0 body
          · simp [hnil, hov, hall, hr]
            omega
          · simp [hnil, hov, hall, hr]
            omega
        · by_cases hr : 9223372036854775808 < strconv.leadingValue 0 body
          · simp [hnil, hov, hall, hr]
          · simp [hnil, hov, hall, hr]
      · cases neg <;> simp [hnil, hov, hall]

theorem maxStep_eq_max (a : Int) (k : String) : maxStep a k = max a (strconv.Atoi k).1 := by
  unfold maxStep
  split <;> omega

theorem maxCounted_nonneg (ks : List String) : 0 ≤ maxCountedValue ks := by
  unfold maxCountedValue
  induction ks.map countedValue with
  | nil => simp
  | cons v vs ih =>
    rw [List.foldr_cons]
    omega

theorem foldl_maxStep_eq (ks : List String) (a : Int) (ha : 0 ≤ a) :
    ks.foldl maxStep a = max a (maxCountedValue ks) := by
  induction ks generalizing a with
  | nil => simp [maxCountedValue, ha]
  | cons k ks ih =>
    have hstep : 0 ≤ maxStep a k := by
      rw [maxStep_eq_max]
      omega
    have hk := Atoi_counted k
    have h0 := maxCounted_nonneg ks
    rw [List.foldl_cons, ih _ hstep, maxStep_eq_max]
    unfold maxCountedValue at h0 ⊢
    rw [List.map_cons, List.foldr_cons]
    omega

theorem maxCounted_eq_maxNumeric (ks : List String)
    (h : ∀ k ∈ ks, overflowsEarly k = false ∧
      ∀ v, numericValue k = some v → v ≤ goint.maxInt) :
    maxCountedValue ks = maxNumericValue ks := by
  induction ks with
  | nil => rfl
  | cons k ks ih =>
    have ih1 := ih (fun k1 hk1 => h k1 (List.mem_cons_of_mem _ hk1))
    have hk := h k (List.mem_cons_self _ _)
    have h0 := maxCounted_nonneg ks
    unfold maxCountedValue at ih1 h0 ⊢
    unfold maxNumericValue at ih1 ⊢
    rw [List.map_cons, List.foldr_cons, ih1]
    unfold countedValue
    rw [hk.1]
    cases hv : numericValue k with
    | none =>
      rw [ih1] at h0
      simp only [List.filterMap_cons, hv, Bool.false_eq_true, if_false]
      omega
    | some v =>
      have hle := hk.2 v hv
      simp only [List.filterMap_cons, hv, List.foldr_cons, Bool.false_eq_true, if_false]
      omega

theorem foldl_maxStep_ge (ks : List String) (a : Int) : a ≤ ks.foldl maxStep a := by
  induction ks generalizing a with
  | nil => simp
  | cons k ks ih =>
    rw [List.foldl_cons]
    refine le_trans ?_ (ih _)
    rw [maxStep_eq_max]
    omega

theorem foldl_maxStep_mem (ks : List String) (a : Int) (k : String) (hk : k ∈ ks) :
    (strconv.Atoi k).1 ≤ ks.foldl maxStep a := by
  induction ks generalizing a with
  | nil => simp at hk
  | cons k1 ks ih =>
    rw [List.foldl_cons]
    rcases List.mem_cons.mp hk with h | h
    · subst h
      refine le_trans ?_ (foldl_maxStep_ge ks _)
      rw [maxStep_eq_max]
      omega
    · exact ih _ h

theorem foldl_maxStep_attained (ks : List String) (a : Int) :
    ks.foldl maxStep a = a ∨ ∃ k ∈ ks, ks.foldl maxStep a = (strconv.Atoi k).1 := by
  induction ks generalizing a with
  | nil => simp
  | cons k1 ks ih =>
    rw [List.foldl_cons]
    rcases ih (maxStep a k1) with h | ⟨k, hk, h⟩
    · rw [h, maxStep_eq_max]
      rcases le_total a (strconv.Atoi k1).1 with hle | hle
      · right
        exact ⟨k1, List.mem_cons_self _ _, by omega⟩
      · left
        omega
    · right
      exact ⟨k, List.mem_cons_of_mem _ hk, h⟩

theorem New_ok_inc {tc : time.Codec} {f : os.File} {r : User} (h : New tc f = .ok r) :
    r.inc = r.cache.keys.foldl maxStep 0 := by
  unfold New at h
  simp only at h
  split at h
  · exact absurd h (by simp)
  · simp only [Except.ok.injEq] at h
    rw [← h]

theorem foldl_maxStep_le_of_keys {ks1 ks2 : List String}
    (h : ∀ k, k ≠ "increment" → k ∈ ks1 → k ∈ ks2) :
    ks1.foldl maxStep 0 ≤ ks2.foldl maxStep 0 := by
  rcases foldl_maxStep_attained ks1 0 with h0 | ⟨k, hk, hv⟩
  · rw [h0]
    exact foldl_maxStep_ge ks2 0
  · rw [hv]
    by_cases hinc : k = "increment"
    · subst hinc
      have h0 : (strconv.Atoi "increment").1 = 0 := by decide
      rw [h0]
      exact foldl_maxStep_ge ks2 0
    · exact foldl_maxStep_mem ks2 0 k (h k hinc hk)

/-- C10 (amended): when `New` succeeds, the counter of the repository it returns is the
largest counted value among the cache keys, and 0 when no key has a positive one.  A key that
is an optionally signed decimal numeral counts with its numeric value, and with the largest
`int` when that value is above the largest `int`; a key without minus sign whose leading
decimal digits spell 2^64 or more counts as the largest `int` whatever follows those digits;
any other key counts 0.  The counter is the largest numeric value among the keys when no key
is above the largest `int` and none overflows early.  Among the documents `New` accepts, two
whose caches have the same keys apart from the key `increment` get the same counter. -/
theorem C10_counter_recomputed (tc : time.Codec) (f : os.File) (r : User)
    (h : New tc f = .ok r) :
    r.inc = maxCountedValue r.cache.keys ∧
    ((∀ k ∈ r.cache.keys, overflowsEarly k = false ∧
        ∀ v, numericValue k = some v → v ≤ goint.maxInt) →
      r.inc = maxNumericValue r.cache.keys) ∧
    (∀ (f2 : os.File) (r2 : User), New tc f2 = .ok r2 →
      (∀ k, k ≠ "increment" → (k ∈ r.cache.keys ↔ k ∈ r2.cache.keys)) → r2.inc = r.inc) := by
  have hinc := New_ok_inc h
  have hcount : r.inc = maxCountedValue r.cache.keys := by
    rw [hinc, foldl_maxStep_eq _ 0 (le_refl 0)]
    have h0 := maxCounted_nonneg r.cache.keys
    omega
  refine ⟨hcount, ?_, ?_⟩
  · intro hsmall
    rw [hcount, maxCounted_eq_maxNumeric _ hsmall]
  · intro f2 r2 h2 hkeys
    rw [hinc, New_ok_inc h2]
    apply le_antisymm
    · exact foldl_maxStep_le_of_keys (fun k hk hmem => (hkeys k hk).mpr hmem)
    · exact foldl_maxStep_le_of_keys (fun k hk hmem => (hkeys k hk).mp hmem)

/-- C10 (witness): a document with the keys 7, +12 and x gives the counter 12. -/
theorem C10_counter_recomputed_witness :
    (12 : Int) = maxCountedValue ["x", "+12", "7"] :=
  (C10_counter_recomputed time.secondsCodec
    (some (.object [("7", .object []), ("+12", .null),
      ("x", .object [("EMAIL", .string "q")])]))
    { f := some (.object [("7", .object []), ("+12", .null),
        ("x", .object [("EMAIL", .string "q")])]),
      cache := userList.mk (((∅ : AList (fun _ : String => entity.User)).insert "7"
        entity.User.zero).insert "+12" entity.User.zero |>.insert "x"
          { entity.User.zero with Email := "q" }),
      inc := 12 } rfl).1

/-- C10 (counterexample): for a document whose only key is 9223372036854775808, `New` succeeds
and sets the counter to 9223372036854775807, while the largest numeric value among the cache
keys is 9223372036854775808.  For a document whose only key is twenty digits 9 followed by the
letter x, `New` succeeds and sets the counter to 9223372036854775807, while that key has no
numeric value and the largest numeric value among the cache keys is 0. -/
theorem C10_counter_saturates :
    (New time.secondsCodec sample.bigKeyFile).toOption.map (fun r => r.inc)
      = some 9223372036854775807 ∧
    (New time.secondsCodec sample.bigKeyFile).toOption.map
      (fun r => maxNumericValue r.cache.keys) = some 9223372036854775808 ∧
    (New time.secondsCodec sample.overflowKeyFile).toOption.map (fun r => r.inc)
      = some 9223372036854775807 ∧
    (New time.secondsCodec sample.overflowKeyFile).toOption.map
      (fun r => (r.cache.keys, maxNumericValue r.cache.keys))
      = some (["99999999999999999999x"], 0) ∧
    strconv.Atoi "99999999999999999999x" = (9223372036854775807, some strconv.ErrRange) ∧
    numericValue "99999999999999999999x" = none := by
  refine ⟨by decide, by decide, by decide, by decide, by decide, by decide⟩

end repo

namespace repo

/-! ### C11: the document on disk after a successful mutation -/

theorem lookupMember_marshalEntries {tc : time.Codec}
    (es : List (Sigma fun _ : String => entity.User)) :
    ∀ ms : List (String × json.Value), json.marshalEntries tc es = .ok ms →
      (∀ k, es.dlookup k = none → json.lookupMember ms k = none) ∧
      (∀ k u, es.dlookup k = some u →
        ∃ v, json.marshalUser tc u = .ok v ∧ json.lookupMember ms k = some v) := by
  induction es with
  | nil =>
    intro ms h
    simp only [json.marshalEntries, Except.ok.injEq] at h
    subst h
    simp [json.lookupMember]
  | cons e es ih =>
    intro ms h
    obtain ⟨k1, u1⟩ := e
    unfold json.marshalEntries at h
    split at h
    · exact absurd h (by simp)
    · rename_i v hv
      split at h
      · exact absurd h (by simp)
      · rename_i vs hvs
        simp only [Except.ok.injEq] at h
        subst h
        obtain ⟨ih1, ih2⟩ := ih vs hvs
        refine ⟨?_, ?_⟩
        · intro k hk
          have hne : k ≠ k1 := by
            intro hkk
            subst hkk
            simp at hk
          rw [List.dlookup_cons_ne _ _ hne] at hk
          simp only [json.lookupMember, if_neg (Ne.symm hne)]
          exact ih1 k hk
        · intro k u hk
          by_cases hkk : k = k1
          · subst hkk
            rw [List.dlookup_cons_eq] at hk
            simp only [Option.some.injEq] at hk
            subst hk
            exact ⟨v, hv, by simp [json.lookupMember]⟩
          · rw [List.dlookup_cons_ne _ _ hkk] at hk
            simp only [json.lookupMember, if_neg (Ne.symm hkk)]
            exact ih2 k u hk

theorem member_marshalList {tc : time.Codec} {cache : userList} {l : json.Value}
    (h : json.marshalList tc cache = .ok l) :
    (∀ k, l.member k = none ↔ cache.index k = none) ∧
    (∀ k u, cache.index k = some u →
      ∃ v, json.marshalUser tc u = .ok v ∧ l.member k = some v) := by
  cases cache with
  | nil =>
    simp only [json.marshalList, Except.ok.injEq] at h
    subst h
    exact ⟨by simp [userList.index, json.Value.member], by simp [userList.index]⟩
  | mk m =>
    unfold json.marshalList at h
    simp only at h
    split at h
    · exact absurd h (by simp)
    · rename_i ms hms
      simp only [Except.ok.injEq] at h
      subst h
      have hperm : List.Perm (json.sortEntries m.entries) m.entries :=
        List.perm_insertionSort _ _
      have hnd : (json.sortEntries m.entries).NodupKeys :=
        (List.perm_nodupKeys hperm).mpr m.nodupKeys
      have hlook : ∀ k, (json.sortEntries m.entries).dlookup k = m.lookup k :=
        fun k => List.perm_dlookup k hnd m.nodupKeys hperm
      obtain ⟨h1, h2⟩ := lookupMember_marshalEntries _ ms hms
      refine ⟨?_, ?_⟩
      · intro k
        simp only [userList.index, json.Value.member]
        constructor
        · intro hk
          by_contra hne
          obtain ⟨u, hu⟩ := Option.ne_none_iff_exists'.mp hne
          obtain ⟨v, _, hv⟩ := h2 k u ((hlook k).trans hu)
          rw [hv] at hk
          exact absurd hk (by simp)
        · intro hk
          exact h1 k ((hlook k).trans hk)
      · intro k u hu
        simp only [userList.index] at hu
        simp only [json.Value.member]
        exact h2 k u ((hlook k).trans hu)

/-- C11: after a successful `Create`, `Update` or `Delete` the backing file holds the encoding
`json.Marshal` gives for the document made of the current counter and the current cache: the
object with the member `increment`, the decimal text of the counter, and the member `list`,
which has a member for exactly the keys of the cache, each holding the encoding of the record
the cache holds under that key (and which is `null` for a nil cache). -/
theorem C11_disk_matches_cache (tc : time.Codec) (r : User) (c : Call)
    (hc : c.mutationSucceeds tc r = true) :
    ∃ listDoc : json.Value,
      (Call.step tc r c).2.f
        = some (.object [("increment", .number (strconv.Itoa (Call.step tc r c).2.inc)),
            ("list", listDoc)]) ∧
      json.Marshal tc
        { Increment := (Call.step tc r c).2.inc, List := (Call.step tc r c).2.cache }
        = .ok (.object [("increment", .number (strconv.Itoa (Call.step tc r c).2.inc)),
            ("list", listDoc)]) ∧
      (∀ k, listDoc.member k = none ↔ (Call.step tc r c).2.cache.index k = none) ∧
      (∀ k u, (Call.step tc r c).2.cache.index k = some u →
        ∃ v, json.marshalUser tc u = .ok v ∧ listDoc.member k = some v) := by
  obtain ⟨buf, hf, hm⟩ := mutation_writes hc
  obtain ⟨l, hl, hbuf⟩ := Marshal_ok hm
  obtain ⟨hnone, hsome⟩ := member_marshalList hl
  exact ⟨l, by rw [hf, hbuf], by rw [hm, hbuf], hnone, hsome⟩

/-- C11 (witness): the file after `Update` of a user with ID 7 on the empty repository. -/
theorem C11_disk_matches_cache_witness :
    ∃ listDoc : json.Value,
      (Call.step time.secondsCodec sample.emptyRepo (.update sample.bob .ok)).2.f
        = some (.object [("increment", .number (strconv.Itoa
            (Call.step time.secondsCodec sample.emptyRepo (.update sample.bob .ok)).2.inc)),
            ("list", listDoc)]) ∧
      json.Marshal time.secondsCodec
        { Increment := (Call.step time.secondsCodec sample.emptyRepo
            (.update sample.bob .ok)).2.inc,
          List := (Call.step time.secondsCodec sample.emptyRepo
            (.update sample.bob .ok)).2.cache }
        = .ok (.object [("increment", .number (strconv.Itoa
            (Call.step time.secondsCodec sample.emptyRepo (.update sample.bob .ok)).2.inc)),
            ("list", listDoc)]) ∧
      (∀ k, listDoc.member k = none ↔
        (Call.step time.secondsCodec sample.emptyRepo
          (.update sample.bob .ok)).2.cache.index k = none) ∧
      (∀ k u, (Call.step time.secondsCodec sample.emptyRepo
          (.update sample.bob .ok)).2.cache.index k = some u →
        ∃ v, json.marshalUser time.secondsCodec u = .ok v ∧ listDoc.member k = some v) :=
  C11_disk_matches_cache time.secondsCodec sample.emptyRepo (.update sample.bob .ok) rfl

/-! ### C12: a mutation that fails -/

theorem Create_returned_err {tc : time.Codec} {w : os.WriteOutcome} {r r1 : User}
    {u : entity.User} {id : Int} {e : Error}
    (h : r.Create tc w u = (.returned (id, some e), r1)) :
    id = 0 ∧ r1.inc = goint.wrap (r.inc + 1) ∧
    r1.cache.index (strconv.Itoa r1.inc) = some u ∧
    ((∃ e0, json.Marshal tc { Increment := r1.inc, List := r1.cache } = .error e0 ∧
        e = fmt.Errorf "repo - Create" e0 ∧ r1.f = r.f) ∨
      (∃ e0 left, w = os.WriteOutcome.fail e0 left ∧ e = fmt.Errorf "repo - Create" e0 ∧
        r1.f = left)) := by
  obtain ⟨f, cache, inc⟩ := r
  unfold User.Create at h
  cases cache with
  | nil => simp [userList.assign] at h
  | mk m =>
    simp only [userList.assign] at h
    split at h
    · rename_i e0 hm
      simp only [Prod.mk.injEq, Outcome.returned.injEq, Option.some.injEq] at h
      obtain ⟨⟨hid, he⟩, hr⟩ := h
      subst hr
      refine ⟨hid.symm, rfl, ?_, Or.inl ⟨e0, hm, he.symm, rfl⟩⟩
      simp [userList.index, AList.lookup_insert]
    · rename_i buf hm
      cases w with
      | ok => simp [os.WriteFile] at h
      | fail e0 left =>
        simp only [os.WriteFile, Prod.mk.injEq, Outcome.returned.injEq,
          Option.some.injEq] at h
        obtain ⟨⟨hid, he⟩, hr⟩ := h
        subst hr
        refine ⟨hid.symm, rfl, ?_, Or.inr ⟨e0, left, rfl, he.symm, rfl⟩⟩
        simp [userList.index, AList.lookup_insert]

theorem Update_returned_err {tc : time.Codec} {w : os.WriteOutcome} {r r1 : User}
    {u : entity.User} {e : Error} (h : r.Update tc w u = (.returned (some e), r1)) :
    r1.inc = r.inc ∧ r1.cache.index (strconv.Itoa u.ID) = some u ∧
    ((∃ e0, json.Marshal tc { Increment := r1.inc, List := r1.cache } = .error e0 ∧
        e = fmt.Errorf "repo - Update" e0 ∧ r1.f = r.f) ∨
      (∃ e0 left, w = os.WriteOutcome.fail e0 left ∧ e = fmt.Errorf "repo - Update" e0 ∧
        r1.f = left)) := by
  obtain ⟨f, cache, inc⟩ := r
  unfold User.Update at h
  cases cache with
  | nil => simp [userList.assign] at h
  | mk m =>
    simp only [userList.assign] at h
    split at h
    · rename_i e0 hm
      simp only [Prod.mk.injEq, Outcome.returned.injEq, Option.some.injEq] at h
      obtain ⟨he, hr⟩ := h
      subst hr
      refine ⟨rfl, ?_, Or.inl ⟨e0, hm, he.symm, rfl⟩⟩
      simp [userList.index, AList.lookup_insert]
    · rename_i buf hm
      cases w with
      | ok => simp [os.WriteFile] at h
      | fail e0 left =>
        simp only [os.WriteFile, Prod.mk.injEq, Outcome.returned.injEq,
          Option.some.injEq] at h
        obtain ⟨he, hr⟩ := h
        subst hr
        refine ⟨rfl, ?_, Or.inr ⟨e0, left, rfl, he.symm, rfl⟩⟩
        simp [userList.index, AList.lookup_insert]

theorem Delete_returned_err {tc : time.Codec} {w : os.WriteOutcome} {r r1 : User}
    {id : Int} {e : Error} (h : r.Delete tc w id = (.returned (some e), r1)) :
    r1.inc = r.inc ∧ r1.cache = r.cache.delete (strconv.Itoa id) ∧
    ((∃ e0, json.Marshal tc { Increment := r1.inc, List := r1.cache } = .error e0 ∧
        e = fmt.Errorf "repo - Delete" e0 ∧ r1.f = r.f) ∨
      (∃ e0 left, w = os.WriteOutcome.fail e0 left ∧ e = fmt.Errorf "repo - Delete" e0 ∧
        r1.f = left)) := by
  obtain ⟨f, cache, inc⟩ := r
  unfold User.Delete at h
  simp only at h
  split at h
  · rename_i e0 hm
    simp only [Prod.mk.injEq, Outcome.returned.injEq, Option.some.injEq] at h
    obtain ⟨he, hr⟩ := h
    subst hr
    exact ⟨rfl, rfl, Or.inl ⟨e0, hm, he.symm, rfl⟩⟩
  · rename_i buf hm
    cases w with
    | ok => simp [os.WriteFile] at h
    | fail e0 left =>
      simp only [os.WriteFile, Prod.mk.injEq, Outcome.returned.injEq,
        Option.some.injEq] at h
      obtain ⟨he, hr⟩ := h
      subst hr
      exact ⟨rfl, rfl, Or.inr ⟨e0, left, rfl, he.symm, rfl⟩⟩

/-- C12 (amended): when `Create(u)` returns an error (it fails in `json.Marshal` or in
`os.WriteFile`) it returns the ID 0, yet the counter has already been incremented (it is one
greater than before when it was below the largest `int`) and the cache already holds `u`
under the decimal text of the new counter.  The backing file is unchanged when the failure
is in `json.Marshal`; after a failed `os.WriteFile` it holds whatever that call left behind.
Likewise a failed `Update` leaves `u` in the cache under its ID and a failed `Delete` leaves
the key removed, with the counter unchanged and the same two cases for the file. -/
theorem C12_failure_keeps_mutation (tc : time.Codec) :
    (∀ (w : os.WriteOutcome) (r r1 : User) (u : entity.User) (id : Int) (e : Error),
      r.Create tc w u = (.returned (id, some e), r1) →
        id = 0 ∧ r1.inc = goint.wrap (r.inc + 1) ∧
        (goint.InRange r.inc → r.inc < goint.maxInt → r1.inc = r.inc + 1) ∧
        r1.cache.index (strconv.Itoa r1.inc) = some u ∧
        ((∃ e0, json.Marshal tc { Increment := r1.inc, List := r1.cache } = .error e0 ∧
            e = fmt.Errorf "repo - Create" e0 ∧ r1.f = r.f) ∨
          (∃ e0 left, w = os.WriteOutcome.fail e0 left ∧
            e = fmt.Errorf "repo - Create" e0 ∧ r1.f = left))) ∧
    (∀ (w : os.WriteOutcome) (r r1 : User) (u : entity.User) (e : Error),
      r.Update tc w u = (.returned (some e), r1) →
        r1.inc = r.inc ∧ r1.cache.index (strconv.Itoa u.ID) = some u ∧
        ((∃ e0, json.Marshal tc { Increment := r1.inc, List := r1.cache } = .error e0 ∧
            e = fmt.Errorf "repo - Update" e0 ∧ r1.f = r.f) ∨
          (∃ e0 left, w = os.WriteOutcome.fail e0 left ∧
            e = fmt.Errorf "repo - Update" e0 ∧ r1.f = left))) ∧
    (∀ (w : os.WriteOutcome) (r r1 : User) (id : Int) (e : Error),
      r.Delete tc w id = (.returned (some e), r1) →
        r1.inc = r.inc ∧ r1.cache = r.cache.delete (strconv.Itoa id) ∧
        r1.cache.index (strconv.Itoa id) = none ∧
        ((∃ e0, json.Marshal tc { Increment := r1.inc, List := r1.cache } = .error e0 ∧
            e = fmt.Errorf "repo - Delete" e0 ∧ r1.f = r.f) ∨
          (∃ e0 left, w = os.WriteOutcome.fail e0 left ∧
            e = fmt.Errorf "repo - Delete" e0 ∧ r1.f = left))) := by
  refine ⟨?_, ?_, ?_⟩
  · intro w r r1 u id e h
    obtain ⟨h1, h2, h3, h4⟩ := Create_returned_err h
    refine ⟨h1, h2, ?_, h3, h4⟩
    intro hr hmax
    rw [h2]
    apply wrap_of_inRange
    unfold goint.InRange goint.minInt goint.maxInt at hr ⊢
    unfold goint.maxInt at hmax
    omega
  · intro w r r1 u e h
    exact Update_returned_err h
  · intro w r r1 id e h
    obtain ⟨h1, h2, h3⟩ := Delete_returned_err h
    exact ⟨h1, h2, by rw [h2, index_delete_self], h3⟩

/-- C12 (witness): `Create` on the empty repository with a write that fails: the ID returned is
0, the counter is 1 and the cache holds the user under the key 1. -/
theorem C12_failure_keeps_mutation_witness :
    (0 : Int) = 0 ∧
    (sample.emptyRepo.Create time.secondsCodec (.fail sample.diskFull none) sample.alice).2.inc
      = goint.wrap (sample.emptyRepo.inc + 1) ∧
    (sample.emptyRepo.Create time.secondsCodec (.fail sample.diskFull none)
      sample.alice).2.cache.index (strconv.Itoa (sample.emptyRepo.Create time.secondsCodec
        (.fail sample.diskFull none) sample.alice).2.inc) = some sample.alice :=
  ⟨((C12_failure_keeps_mutation time.secondsCodec).1 (.fail sample.diskFull none)
      sample.emptyRepo _ sample.alice 0 (fmt.Errorf "repo - Create" sample.diskFull) rfl).1,
    ((C12_failure_keeps_mutation time.secondsCodec).1 (.fail sample.diskFull none)
      sample.emptyRepo _ sample.alice 0 (fmt.Errorf "repo - Create" sample.diskFull)
      rfl).2.1,
    ((C12_failure_keeps_mutation time.secondsCodec).1 (.fail sample.diskFull none)
      sample.emptyRepo _ sample.alice 0 (fmt.Errorf "repo - Create" sample.diskFull)
      rfl).2.2.2.1⟩

/-- C12 (counterexample): on the repository built from a file that holds the empty object,
`Create` with a write that fails after truncating the file returns the ID 0 with an error,
and the file, which held the empty object, no longer holds a document.  And on the repository
whose counter is the largest `int`, a failing `Create` leaves the counter at the smallest
`int`, not one greater than before. -/
theorem C12_failed_write_changes_file :
    (sample.emptyRepo.Create time.secondsCodec (.fail sample.diskFull none) sample.alice).1
      = .returned (0, some (fmt.Errorf "repo - Create" sample.diskFull)) ∧
    sample.emptyRepo.f = some (.object []) ∧
    (sample.emptyRepo.Create time.secondsCodec (.fail sample.diskFull none) sample.alice).2.f
      = none ∧
    (sample.maxRepo.Create time.secondsCodec (.fail sample.diskFull sample.maxFile)
      sample.alice).1 = .returned (0, some (fmt.Errorf "repo - Create" sample.diskFull)) ∧
    (sample.maxRepo.Create time.secondsCodec (.fail sample.diskFull sample.maxFile)
      sample.alice).2.inc = -9223372036854775808 ∧
    sample.maxRepo.inc + 1 = 9223372036854775808 := by
  refine ⟨by decide, rfl, rfl, by decide, by decide, by decide⟩

/-! ### C14: `GetByID` -/

/-- C14: `GetByID(id)` fails, and then with `entity.ErrNoID`, exactly when the cache has no
entry under the decimal text of `id`; otherwise it returns the stored record with a nil
error; in both cases it leaves the repository state (cache, counter and backing file) as it
was. -/
theorem C14_get_by_id (r : User) (id : Int) :
    ((r.GetByID id).1 = .returned (entity.User.zero, some entity.ErrNoID) ↔
      r.cache.index (strconv.Itoa id) = none) ∧
    (∀ u e, (r.GetByID id).1 = .returned (u, some e) →
      e = entity.ErrNoID ∧ r.cache.index (strconv.Itoa id) = none) ∧
    (∀ u, r.cache.index (strconv.Itoa id) = some u → (r.GetByID id).1 = .returned (u, none)) ∧
    (r.GetByID id).2 = r := by
  unfold User.GetByID
  cases h : r.cache.index (strconv.Itoa id) with
  | none => simp
  | some u0 => simp

end repo

namespace usecases

/-! ### C13: how the use-case layer classifies errors -/

theorem GetUserByID_returned {σ : Type} (R : UserRepo σ) {s s1 : σ} {id : Int}
    {user : entity.User} {err : Option Error}
    (h : R.GetByID s id = (.returned (user, err), s1)) :
    (∀ e, err = some e → errors.Is (some e) entity.ErrNoID = true →
      (New R).GetUserByID s id = (.returned (entity.User.zero, some e), s1)) ∧
    (∀ e, err = some e → errors.Is (some e) entity.ErrNoID = false →
      (New R).GetUserByID s id
        = (.returned (entity.User.zero, some (Error.wrap "UserUsecase - GetUserByID" e)), s1)) ∧
    (err = none → (New R).GetUserByID s id = (.returned (user, none), s1)) := by
  refine ⟨?_, ?_, ?_⟩
  · intro e he hk
    subst he
    unfold UserUsecase.GetUserByID New
    simp only [h, hk, if_true]
  · intro e he hk
    subst he
    unfold UserUsecase.GetUserByID New
    simp only [h, hk, Bool.false_eq_true, if_false, fmt.Errorf]
  · intro he
    subst he
    unfold UserUsecase.GetUserByID New
    simp only [h, errors.Is, Bool.false_eq_true, if_false]

theorem CreateUser_returned {σ : Type} (R : UserRepo σ) {s s1 : σ} {u : entity.User} {id : Int}
    {err : Option Error} (h : R.Create s u = (.returned (id, err), s1)) :
    (∀ e, err = some e →
      (New R).CreateUser s u
        = (.returned (0, some (Error.wrap "UserUsecase - CreateUser" e)), s1)) ∧
    (err = none → (New R).CreateUser s u = (.returned (id, none), s1)) := by
  refine ⟨?_, ?_⟩
  · intro e he
    subst he
    unfold UserUsecase.CreateUser New
    simp only [h, fmt.Errorf]
  · intro he
    subst he
    unfold UserUsecase.CreateUser New
    simp only [h]

theorem UpdateUser_returned {σ : Type} (R : UserRepo σ) {s s1 : σ} {u user0 : entity.User}
    {err0 : Option Error} (h : R.GetByID s u.ID = (.returned (user0, err0), s1)) :
    (∀ e, err0 = some e → errors.Is (some e) entity.ErrNoID = true →
      (New R).UpdateUser s u = (.returned (some e), s1)) ∧
    (∀ e, err0 = some e → errors.Is (some e) entity.ErrNoID = false →
      (New R).UpdateUser s u
        = (.returned (some (Error.wrap "UserUsecase - UpdateUser"
            (Error.wrap "UserUsecase - GetUserByID" e))), s1)) ∧
    (err0 = none → ∀ (err1 : Option Error) (s2 : σ), R.Update s1 u = (.returned err1, s2) →
      (∀ e, err1 = some e →
        (New R).UpdateUser s u
          = (.returned (some (Error.wrap "UserUsecase - UpdateUser" e)), s2)) ∧
      (err1 = none → (New R).UpdateUser s u = (.returned none, s2))) := by
  obtain ⟨g1, g2, g3⟩ := GetUserByID_returned R h
  refine ⟨?_, ?_, ?_⟩
  · intro e he hk
    unfold UserUsecase.UpdateUser
    simp only [g1 e he hk, hk, if_true]
  · intro e he hk
    have hk2 : errors.Is (some (Error.wrap "UserUsecase - GetUserByID" e)) entity.ErrNoID
        = false := by
      simp only [errors.Is, Error.matchesTarget, Bool.or_eq_false_iff] at hk ⊢
      exact ⟨by simp [entity.ErrNoID], hk⟩
    unfold UserUsecase.UpdateUser
    simp only [g2 e he hk, hk2, Bool.false_eq_true, if_false, fmt.Errorf]
  · intro he err1 s2 hu
    have hget := g3 he
    refine ⟨?_, ?_⟩
    · intro e he1
      subst he1
      unfold UserUsecase.UpdateUser
      simp only [hget, errors.Is, Bool.false_eq_true, if_false]
      simp only [New] at hu ⊢
      simp only [hu, fmt.Errorf]
    · intro he1
      subst he1
      unfold UserUsecase.UpdateUser
      simp only [hget, errors.Is, Bool.false_eq_true, if_false]
      simp only [New] at hu ⊢
      simp only [hu]

theorem DeleteUser_returned {σ : Type} (R : UserRepo σ) {s s1 : σ} {id : Int}
    {user0 : entity.User} {err0 : Option Error}
    (h : R.GetByID s id = (.returned (user0, err0), s1)) :
    (∀ e, err0 = some e → errors.Is (some e) entity.ErrNoID = true →
      (New R).DeleteUser s id = (.returned (some e), s1)) ∧
    (∀ e, err0 = some e → errors.Is (some e) entity.ErrNoID = false →
      (New R).DeleteUser s id
        = (.returned (some (Error.wrap "UserUsecase - DeleteUser"
            (Error.wrap "UserUsecase - GetUserByID" e))), s1)) ∧
    (err0 = none → ∀ (err1 : Option Error) (s2 : σ), R.Delete s1 id = (.returned err1, s2) →
      (∀ e, err1 = some e →
        (New R).DeleteUser s id
          = (.returned (some (Error.wrap "UserUsecase - DeleteUser" e)), s2)) ∧
      (err1 = none → (New R).DeleteUser s id = (.returned none, s2))) := by
  obtain ⟨g1, g2, g3⟩ := GetUserByID_returned R h
  refine ⟨?_, ?_, ?_⟩
  · intro e he hk
    unfold UserUsecase.DeleteUser
    simp only [g1 e he hk, hk, if_true]
  · intro e he hk
    have hk2 : errors.Is (some (Error.wrap "UserUsecase - GetUserByID" e)) entity.ErrNoID
        = false := by
      simp only [errors.Is, Error.matchesTarget, Bool.or_eq_false_iff] at hk ⊢
      exact ⟨by simp [entity.ErrNoID], hk⟩
    unfold UserUsecase.DeleteUser
    simp only [g2 e he hk, hk2, Bool.false_eq_true, if_false, fmt.Errorf]
  · intro he err1 s2 hu
    have hget := g3 he
    refine ⟨?_, ?_⟩
    · intro e he1
      subst he1
      unfold UserUsecase.DeleteUser
      simp only [hget, errors.Is, Bool.false_eq_true, if_false]
      simp only [New] at hu ⊢
      simp only [hu, fmt.Errorf]
    · intro he1
      subst he1
      unfold UserUsecase.DeleteUser
      simp only [hget, errors.Is, Bool.false_eq_true, if_false]
      simp only [New] at hu ⊢
      simp only [hu]

theorem Is_wrap_of_ne {c : String} {e k : Error} (hk : Error.wrap c e ≠ k) :
    errors.Is (some (Error.wrap c e)) k = errors.Is (some e) k := by
  simp only [errors.Is, Error.matchesTarget, hk, decide_False, Bool.false_or]

/-- C13: for every implementation of `UserRepo` and every error its methods return.
`GetUserByID` returns an error of `GetByID` that is or wraps `entity.ErrNoID` unchanged and
wraps any other under its own name.  `CreateUser` wraps every error of `Create` under its own
name.  `UpdateUser` and `DeleteUser` return an error of the `GetByID` step that is or wraps
`entity.ErrNoID` unchanged, wrap any other error of that step under their own name (around
the wrapping `GetUserByID` gave it), and wrap every error of `Update` or `Delete` under their
own name.  Each wrapping is the value `Error.wrap` with the name of the operation as context
and the error of the repository inside.  For every `k` other than the returned wrapping
itself, a wrapping matches `k`, with `errors.Is`, exactly when the wrapped error matches `k`.
Each method returns a nil error exactly when every repository call it made did. -/
theorem C13_error_classification {σ : Type} (R : UserRepo σ) (s : σ) :
    (∀ (id : Int) (user : entity.User) (err : Option Error) (s1 : σ),
      R.GetByID s id = (.returned (user, err), s1) →
        (∀ e, err = some e → errors.Is (some e) entity.ErrNoID = true →
          (New R).GetUserByID s id = (.returned (entity.User.zero, some e), s1)) ∧
        (∀ e, err = some e → errors.Is (some e) entity.ErrNoID = false →
          (New R).GetUserByID s id
            = (.returned (entity.User.zero,
                some (Error.wrap "UserUsecase - GetUserByID" e)), s1)) ∧
        ((New R).GetUserByID s id = (.returned (user, none), s1) ↔ err = none)) ∧
    (∀ (u : entity.User) (id : Int) (err : Option Error) (s1 : σ),
      R.Create s u = (.returned (id, err), s1) →
        (∀ e, err = some e →
          (New R).CreateUser s u
            = (.returned (0, some (Error.wrap "UserUsecase - CreateUser" e)), s1)) ∧
        ((New R).CreateUser s u = (.returned (id, none), s1) ↔ err = none)) ∧
    (∀ (u user0 : entity.User) (err0 : Option Error) (s1 : σ),
      R.GetByID s u.ID = (.returned (user0, err0), s1) →
        (∀ e, err0 = some e → errors.Is (some e) entity.ErrNoID = true →
          (New R).UpdateUser s u = (.returned (some e), s1)) ∧
        (∀ e, err0 = some e → errors.Is (some e) entity.ErrNoID = false →
          (New R).UpdateUser s u
            = (.returned (some (Error.wrap "UserUsecase - UpdateUser"
                (Error.wrap "UserUsecase - GetUserByID" e))), s1)) ∧
        (err0 = none → ∀ (err1 : Option Error) (s2 : σ),
          R.Update s1 u = (.returned err1, s2) →
            (∀ e, err1 = some e →
              (New R).UpdateUser s u
                = (.returned (some (Error.wrap "UserUsecase - UpdateUser" e)), s2)) ∧
            ((New R).UpdateUser s u = (.returned none, s2) ↔ err1 = none))) ∧
    (∀ (id : Int) (user0 : entity.User) (err0 : Option Error) (s1 : σ),
      R.GetByID s id = (.returned (user0, err0), s1) →
        (∀ e, err0 = some e → errors.Is (some e) entity.ErrNoID = true →
          (New R).DeleteUser s id = (.returned (some e), s1)) ∧
        (∀ e, err0 = some e → errors.Is (some e) entity.ErrNoID = false →
          (New R).DeleteUser s id
            = (.returned (some (Error.wrap "UserUsecase - DeleteUser"
                (Error.wrap "UserUsecase - GetUserByID" e))), s1)) ∧
        (err0 = none → ∀ (err1 : Option Error) (s2 : σ),
          R.Delete s1 id = (.returned err1, s2) →
            (∀ e, err1 = some e →
              (New R).DeleteUser s id
                = (.returned (some (Error.wrap "UserUsecase - DeleteUser" e)), s2)) ∧
            ((New R).DeleteUser s id = (.returned none, s2) ↔ err1 = none))) ∧
    (∀ (c : String) (e k : Error), Error.wrap c e ≠ k →
      errors.Is (some (Error.wrap c e)) k = errors.Is (some e) k) ∧
    (∀ (c1 c2 : String) (e k : Error), Error.wrap c1 (Error.wrap c2 e) ≠ k →
      Error.wrap c2 e ≠ k →
      errors.Is (some (Error.wrap c1 (Error.wrap c2 e))) k = errors.Is (some e) k) := by
  refine ⟨?_, ?_, ?_, ?_, ?_, ?_⟩
  · intro id user err s1 h
    obtain ⟨g1, g2, g3⟩ := GetUserByID_returned R h
    refine ⟨g1, g2, ?_, g3⟩
    intro hres
    cases err with
    | none => rfl
    | some e =>
      cases hk : errors.Is (some e) entity.ErrNoID with
      | true =>
        rw [g1 e rfl hk] at hres
        simp at hres
      | false =>
        rw [g2 e rfl hk] at hres
        simp at hres
  · intro u id err s1 h
    obtain ⟨g1, g2⟩ := CreateUser_returned R h
    refine ⟨g1, ?_, g2⟩
    intro hres
    cases err with
    | none => rfl
    | some e =>
      rw [g1 e rfl] at hres
      simp at hres
  · intro u user0 err0 s1 h
    obtain ⟨g1, g2, g3⟩ := UpdateUser_returned R h
    refine ⟨g1, g2, ?_⟩
    intro he err1 s2 hu
    obtain ⟨g4, g5⟩ := g3 he err1 s2 hu
    refine ⟨g4, ?_, g5⟩
    intro hres
    cases err1 with
    | none => rfl
    | some e =>
      rw [g4 e rfl] at hres
      simp at hres
  · intro id user0 err0 s1 h
    obtain ⟨g1, g2, g3⟩ := DeleteUser_returned R h
    refine ⟨g1, g2, ?_⟩
    intro he err1 s2 hu
    obtain ⟨g4, g5⟩ := g3 he err1 s2 hu
    refine ⟨g4, ?_, g5⟩
    intro hres
    cases err1 with
    | none => rfl
    | some e =>
      rw [g4 e rfl] at hres
      simp at hres
  · intro c e k hk
    exact Is_wrap_of_ne hk
  · intro c1 c2 e k hk1 hk2
    rw [Is_wrap_of_ne hk1, Is_wrap_of_ne hk2]

/-- C13 (witness): over a repository whose `GetByID` returns a time-out error, `UpdateUser`
returns that error wrapped under the names of `GetUserByID` and `UpdateUser`. -/
theorem C13_error_classification_witness :
    (New sample.brokenRepo).UpdateUser () sample.bob
      = (.returned (some (Error.wrap "UserUsecase - UpdateUser"
          (Error.wrap "UserUsecase - GetUserByID" sample.timeout))), ()) :=
  ((C13_error_classification sample.brokenRepo ()).2.2.1 sample.bob entity.User.zero
    (some sample.timeout) () rfl).2.1 sample.timeout rfl (by decide)

end usecases

namespace repo

/-! ### C15: the scenario on an empty store -/

theorem marshalEntries_ok_of {tc : time.Codec}
    (es : List (Sigma fun _ : String => entity.User))
    (h : ∀ e ∈ es, ∃ s, tc.MarshalJSON e.2.CreatedAt = .ok s) :
    ∃ ms, json.marshalEntries tc es = .ok ms := by
  induction es with
  | nil => exact ⟨[], rfl⟩
  | cons e es ih =>
    obtain ⟨s, hs⟩ := h e (List.mem_cons_self _ _)
    obtain ⟨ms, hms⟩ := ih (fun e1 he1 => h e1 (List.mem_cons_of_mem _ he1))
    refine ⟨(e.1, .object [("created_at", .string s),
      ("display_name", .string e.2.DisplayName), ("email", .string e.2.Email)]) :: ms, ?_⟩
    simp only [json.marshalEntries, json.marshalUser, hs, hms]

theorem Marshal_ok_of_marshalable {tc : time.Codec} {l : userList} (i : Int)
    (h : Marshalable tc l) : ∃ buf, json.Marshal tc { Increment := i, List := l } = .ok buf := by
  cases l with
  | nil => exact ⟨_, rfl⟩
  | mk m =>
    have hperm : List.Perm (json.sortEntries m.entries) m.entries :=
      List.perm_insertionSort _ _
    have hall : ∀ e ∈ json.sortEntries m.entries,
        ∃ s, tc.MarshalJSON e.2.CreatedAt = .ok s := by
      intro e he
      obtain ⟨k, u⟩ := e
      have hmem : (⟨k, u⟩ : Sigma fun _ : String => entity.User) ∈ m.entries :=
        hperm.mem_iff.mp he
      exact h k u (AList.mem_lookup_iff.mpr hmem)
    obtain ⟨ms, hms⟩ := marshalEntries_ok_of _ hall
    refine ⟨.object [("increment", .number (strconv.Itoa i)), ("list", .object ms)], ?_⟩
    simp only [json.Marshal, json.marshalList, hms]

theorem Marshalable_empty (tc : time.Codec) : Marshalable tc userList.empty := by
  intro k u h
  simp [userList.empty, userList.index] at h

theorem Marshalable_insert {tc : time.Codec} {m : AList (fun _ : String => entity.User)}
    (k : String) {u : entity.User} {s : String} (h : Marshalable tc (userList.mk m))
    (hu : tc.MarshalJSON u.CreatedAt = .ok s) :
    Marshalable tc (userList.mk (m.insert k u)) := by
  intro k1 u1 h1
  simp only [userList.index] at h1
  by_cases hk : k1 = k
  · subst hk
    rw [AList.lookup_insert] at h1
    simp only [Option.some.injEq] at h1
    subst h1
    exact ⟨s, hu⟩
  · rw [AList.lookup_insert_ne hk] at h1
    exact h k1 u1 h1

theorem Marshalable_delete {tc : time.Codec} {l : userList} (k : String)
    (h : Marshalable tc l) : Marshalable tc (l.delete k) := by
  intro k1 u1 h1
  cases l with
  | nil => simp [userList.delete, userList.index] at h1
  | mk m =>
    simp only [userList.delete, userList.index] at h1
    by_cases hk : k1 = k
    · subst hk
      rw [AList.lookup_erase] at h1
      exact absurd h1 (by simp)
    · rw [AList.lookup_erase_ne hk] at h1
      exact h k1 u1 h1

theorem Create_succeeds {tc : time.Codec} (f : os.File)
    {m : AList (fun _ : String => entity.User)} (inc n : Int) {key s : String}
    {u : entity.User} (hm : Marshalable tc (userList.mk m))
    (hu : tc.MarshalJSON u.CreatedAt = .ok s) (hn : goint.wrap (inc + 1) = n)
    (hkey : strconv.Itoa n = key) :
    ∃ buf, User.Create tc .ok { f := f, cache := userList.mk m, inc := inc } u
      = (.returned (n, none),
          { f := some buf, cache := userList.mk (m.insert key u), inc := n }) := by
  obtain ⟨buf, hbuf⟩ := Marshal_ok_of_marshalable n (Marshalable_insert key hm hu)
  refine ⟨buf, ?_⟩
  unfold User.Create
  simp only [userList.assign, hn, hkey, hbuf, os.WriteFile]

theorem Delete_succeeds {tc : time.Codec} (f : os.File) {cache : userList} (inc : Int)
    (id : Int) (hm : Marshalable tc cache) :
    ∃ buf, User.Delete tc .ok { f := f, cache := cache, inc := inc } id
      = (.returned none,
          { f := some buf, cache := cache.delete (strconv.Itoa id), inc := inc }) := by
  obtain ⟨buf, hbuf⟩ := Marshal_ok_of_marshalable inc (Marshalable_delete (strconv.Itoa id) hm)
  refine ⟨buf, ?_⟩
  unfold User.Delete
  simp only [hbuf, os.WriteFile]

/-- C15: on a repository with an empty cache and the counter 0, for users `A`, `B`, `C`
whose writes succeed (their creation times can be encoded and every `os.WriteFile`
succeeds): `Create(A)` returns 1, `Create(B)` returns 2, `Delete(1)` succeeds, `GetByID(1)`
fails with `entity.ErrNoID`, `Create(C)` returns 3, `GetByID(2)` returns `B` and `GetByID(3)`
returns `C`. -/
theorem C15_scenario (tc : time.Codec) (r0 : User) (A B C : entity.User) (sA sB sC : String)
    (hcache : r0.cache = userList.empty) (hinc : r0.inc = 0)
    (hA : tc.MarshalJSON A.CreatedAt = .ok sA) (hB : tc.MarshalJSON B.CreatedAt = .ok sB)
    (hC : tc.MarshalJSON C.CreatedAt = .ok sC) :
    (r0.Create tc .ok A).1 = .returned (1, none) ∧
    ((runCalls tc r0 [.create A .ok]).Create tc .ok B).1 = .returned (2, none) ∧
    ((runCalls tc r0 [.create A .ok, .create B .ok]).Delete tc .ok 1).1 = .returned none ∧
    ((runCalls tc r0 [.create A .ok, .create B .ok, .delete 1 .ok]).GetByID 1).1
      = .returned (entity.User.zero, some entity.ErrNoID) ∧
    ((runCalls tc r0 [.create A .ok, .create B .ok, .delete 1 .ok, .getByID 1]).Create
      tc .ok C).1 = .returned (3, none) ∧
    ((runCalls tc r0 [.create A .ok, .create B .ok, .delete 1 .ok, .getByID 1,
      .create C .ok]).GetByID 2).1 = .returned (B, none) ∧
    ((runCalls tc r0 [.create A .ok, .create B .ok, .delete 1 .ok, .getByID 1,
      .create C .ok]).GetByID 3).1 = .returned (C, none) := by
  obtain ⟨f0, cache0, inc0⟩ := r0
  simp only at hcache hinc
  subst hcache hinc
  have k1 : strconv.Itoa 1 = "1" := by decide
  have k2 : strconv.Itoa 2 = "2" := by decide
  have k3 : strconv.Itoa 3 = "3" := by decide
  have n12 : ("1" : String) ≠ "2" := by decide
  have n13 : ("1" : String) ≠ "3" := by decide
  have n23 : ("2" : String) ≠ "3" := by decide
  have m0 := Marshalable_empty tc
  obtain ⟨buf1, h1⟩ := Create_succeeds f0 0 1 m0 hA (by decide) k1
  have m1 := Marshalable_insert "1" m0 hA
  obtain ⟨buf2, h2⟩ := Create_succeeds (some buf1) 1 2 m1 hB (by decide) k2
  have m2 := Marshalable_insert "2" m1 hB
  obtain ⟨buf3, h3⟩ := Delete_succeeds (some buf2) 2 1 m2
  have m3 := Marshalable_delete (strconv.Itoa 1) m2
  rw [k1] at h3 m3
  simp only [userList.delete] at h3 m3
  obtain ⟨buf4, h4⟩ := Create_succeeds (some buf3) 2 3 m3 hC (by decide) k3
  simp only [userList.empty] at h1 ⊢
  refine ⟨?_, ?_, ?_, ?_, ?_, ?_, ?_⟩
  · rw [h1]
  · simp only [runCalls, List.foldl, Call.step, h1, h2]
  · simp only [runCalls, List.foldl, Call.step, h1, h2, h3]
  · simp only [runCalls, List.foldl, Call.step, h1, h2, h3, User.GetByID, k1]
    simp only [userList.index, AList.lookup_erase]
  · simp only [runCalls, List.foldl, Call.step, h1, h2, h3, GetByID_state, h4]
  · simp only [runCalls, List.foldl, Call.step, h1, h2, h3, GetByID_state, h4]
    simp only [User.GetByID, k2]
    simp only [userList.index, AList.lookup_insert_ne n23, AList.lookup_erase_ne n12.symm,
      AList.lookup_insert]
  · simp only [runCalls, List.foldl, Call.step, h1, h2, h3, GetByID_state, h4]
    simp only [User.GetByID, k3]
    simp only [userList.index, AList.lookup_insert]

/-- C15 (witness): the scenario on the repository built from a file that holds the empty
object, with two sample users. -/
theorem C15_scenario_witness :
    (sample.emptyRepo.Create time.secondsCodec .ok sample.alice).1 = .returned (1, none) ∧
    ((runCalls time.secondsCodec sample.emptyRepo [.create sample.alice .ok]).Create
      time.secondsCodec .ok sample.bob).1 = .returned (2, none) ∧
    ((runCalls time.secondsCodec sample.emptyRepo
      [.create sample.alice .ok, .create sample.bob .ok]).Delete
      time.secondsCodec .ok 1).1 = .returned none ∧
    ((runCalls time.secondsCodec sample.emptyRepo
      [.create sample.alice .ok, .create sample.bob .ok, .delete 1 .ok]).GetByID 1).1
      = .returned (entity.User.zero, some entity.ErrNoID) ∧
    ((runCalls time.secondsCodec sample.emptyRepo
      [.create sample.alice .ok, .create sample.bob .ok, .delete 1 .ok, .getByID 1]).Create
      time.secondsCodec .ok sample.alice).1 = .returned (3, none) ∧
    ((runCalls time.secondsCodec sample.emptyRepo
      [.create sample.alice .ok, .create sample.bob .ok, .delete 1 .ok, .getByID 1,
        .create sample.alice .ok]).GetByID 2).1 = .returned (sample.bob, none) ∧
    ((runCalls time.secondsCodec sample.emptyRepo
      [.create sample.alice .ok, .create sample.bob .ok, .delete 1 .ok, .getByID 1,
        .create sample.alice .ok]).GetByID 3).1 = .returned (sample.alice, none) :=
  C15_scenario time.secondsCodec sample.emptyRepo sample.alice sample.bob sample.alice
    "63000000000" "63000000001" "63000000000" rfl rfl rfl rfl rfl

end repo

namespace strconv

/-! ### `Itoa` is injective -/

theorem digits_injective {m n : Nat} (h : digits m = digits n) : m = n := by
  have hm := parseDigits_digits m
  rw [h, parseDigits_digits n] at hm
  exact (Option.some.inj hm).symm

theorem minus_not_mem_digits (n : Nat) : '-' ∉ digits n := by
  intro h
  unfold digits at h
  exact (digitsRev_no_sign (n + 1) n _ (List.mem_reverse.mp h)).1 rfl

/-- Different integers have different decimal texts. -/
theorem Itoa_inj {i j : Int} (h : Itoa i = Itoa j) : i = j := by
  have hd := congrArg String.data h
  cases i with
  | ofNat m =>
    cases j with
    | ofNat n =>
      simp only [Itoa] at hd
      rw [digits_injective hd]
    | negSucc n =>
      simp only [Itoa] at hd
      have hmem : '-' ∈ digits m := by
        rw [hd]
        exact List.mem_cons_self _ _
      exact absurd hmem (minus_not_mem_digits m)
  | negSucc m =>
    cases j with
    | ofNat n =>
      simp only [Itoa] at hd
      have hmem : '-' ∈ digits n := by
        rw [← hd]
        exact List.mem_cons_self _ _
      exact absurd hmem (minus_not_mem_digits n)
    | negSucc n =>
      simp only [Itoa, List.cons.injEq, true_and] at hd
      have hmn := digits_injective hd
      have hmn1 : m = n := by omega
      rw [hmn1]

end strconv

namespace repo

/-! ### C16: a mutation touches one key -/

theorem index_assign_ne {l c : userList} {k k1 : String} {u : entity.User}
    (hc : l.assign k u = some c) (hne : k1 ≠ k) : c.index k1 = l.index k1 := by
  cases l with
  | nil => simp [userList.assign] at hc
  | mk m =>
    simp only [userList.assign, Option.some.injEq] at hc
    subst hc
    simp only [userList.index, AList.lookup_insert_ne hne]

theorem index_delete_ne (l : userList) {k k1 : String} (hne : k1 ≠ k) :
    (l.delete k).index k1 = l.index k1 := by
  cases l with
  | nil => rfl
  | mk m => simp only [userList.delete, userList.index, AList.lookup_erase_ne hne]

theorem GetByID_congr {r r1 : User} {id : Int}
    (h : r1.cache.index (strconv.Itoa id) = r.cache.index (strconv.Itoa id)) :
    (r1.GetByID id).1 = (r.GetByID id).1 := by
  unfold User.GetByID
  rw [h]
  cases r.cache.index (strconv.Itoa id) <;> rfl

theorem Create_frame (tc : time.Codec) (w : os.WriteOutcome) (r : User) (u : entity.User)
    (j : Int) (hj : goint.wrap (r.inc + 1) ≠ j) :
    ((r.Create tc w u).2.GetByID j).1 = (r.GetByID j).1 := by
  apply GetByID_congr
  rw [Create_cache]
  have hne : strconv.Itoa j ≠ strconv.Itoa (goint.wrap (r.inc + 1)) :=
    fun h => hj (strconv.Itoa_inj h).symm
  cases hc : r.cache.assign (strconv.Itoa (goint.wrap (r.inc + 1))) u with
  | none => rfl
  | some c => exact index_assign_ne hc hne

/-- C16 (amended): for ids `i` and `j` with `i` different from `j`, the result of `GetByID(j)`
is the same before and after `Update` of a user with ID `i` and before and after `Delete(i)`,
whether they succeed or fail.  The result of `GetByID(j)` is the same before and after a
`Create` whose new counter value, the key it stores the user under, is different from `j`; in
particular after a successful `Create` that returns an ID different from `j`.  (A `Create`
that fails returns the ID 0 and has stored the user under the new counter value.) -/
theorem C16_single_key_frame (tc : time.Codec) (r : User) (i j : Int) (hij : i ≠ j) :
    (∀ (w : os.WriteOutcome) (u : entity.User), u.ID = i →
      ((r.Update tc w u).2.GetByID j).1 = (r.GetByID j).1) ∧
    (∀ w : os.WriteOutcome, ((r.Delete tc w i).2.GetByID j).1 = (r.GetByID j).1) ∧
    (∀ (w : os.WriteOutcome) (u : entity.User), goint.wrap (r.inc + 1) ≠ j →
      ((r.Create tc w u).2.GetByID j).1 = (r.GetByID j).1) ∧
    (∀ (w : os.WriteOutcome) (u : entity.User) (newID : Int) (r1 : User),
      r.Create tc w u = (.returned (newID, none), r1) → newID ≠ j →
        (r1.GetByID j).1 = (r.GetByID j).1) := by
  have hne : strconv.Itoa j ≠ strconv.Itoa i := fun h => hij (strconv.Itoa_inj h).symm
  refine ⟨?_, ?_, ?_, ?_⟩
  · intro w u hu
    apply GetByID_congr
    rw [Update_cache, hu]
    cases hc : r.cache.assign (strconv.Itoa i) u with
    | none => rfl
    | some c => exact index_assign_ne hc hne
  · intro w
    apply GetByID_congr
    rw [Delete_cache]
    exact index_delete_ne _ hne
  · intro w u hj
    exact Create_frame tc w r u j hj
  · intro w u newID r1 h hj
    obtain ⟨_, _, _, hid, _⟩ := Create_returned_ok h
    have hr1 : r1 = (r.Create tc w u).2 := by rw [h]
    rw [hr1]
    exact Create_frame tc w r u j (by rw [← hid]; exact hj)

/-- C16 (witness): on the repository that holds a user under key 1, `Update` of a user with
ID 7 does not change what `GetByID(1)` returns. -/
theorem C16_single_key_frame_witness :
    (((sample.emptyRepo.Create time.secondsCodec .ok sample.alice).2.Update
      time.secondsCodec .ok sample.bob).2.GetByID 1).1
      = ((sample.emptyRepo.Create time.secondsCodec .ok sample.alice).2.GetByID 1).1 :=
  (C16_single_key_frame time.secondsCodec
    (sample.emptyRepo.Create time.secondsCodec .ok sample.alice).2 7 1 (by decide)).1
    .ok sample.bob rfl

/-- C16 (counterexample): on the empty repository a `Create` whose write fails returns the ID
0, which is different from 1, and yet `GetByID(1)`, which failed with `entity.ErrNoID` before
the call, returns the user after it. -/
theorem C16_failed_create_not_framed :
    (sample.emptyRepo.Create time.secondsCodec (.fail sample.diskFull none) sample.alice).1
      = .returned (0, some (fmt.Errorf "repo - Create" sample.diskFull)) ∧
    (0 : Int) ≠ 1 ∧
    (sample.emptyRepo.GetByID 1).1 = .returned (entity.User.zero, some entity.ErrNoID) ∧
    ((sample.emptyRepo.Create time.secondsCodec (.fail sample.diskFull none)
      sample.alice).2.GetByID 1).1 = .returned (sample.alice, none) := by
  refine ⟨by decide, by decide, by decide, by decide⟩

/-! ### C17: the first `Create` after `New` -/

theorem mem_keys_of_index {l : userList} {k : String} {u : entity.User}
    (h : l.index k = some u) : k ∈ l.keys := by
  cases l with
  | nil => simp [userList.index] at h
  | mk m =>
    simp only [userList.index] at h
    simp only [userList.keys]
    rw [← AList.mem_keys, ← AList.lookup_isSome, h]
    rfl

/-- C17: when `New` succeeds and the counter it computed is below the largest `int`, the key
under which the next `Create` stores its user (the decimal text of the counter plus one) is
absent from the cache, whatever strings the keys of the cache are.  So every entry of the
cache is still there after the `Create`, and every record `GetByID` returned before the
`Create` it returns unchanged afterwards, whether the `Create` succeeds or fails. -/
theorem C17_first_create_keeps_records (tc : time.Codec) (f : os.File) (r : User)
    (h : New tc f = .ok r) (hmax : r.inc < goint.maxInt) :
    goint.wrap (r.inc + 1) = r.inc + 1 ∧
    r.cache.index (strconv.Itoa (r.inc + 1)) = none ∧
    (∀ (w : os.WriteOutcome) (u : entity.User) (k : String) (rec : entity.User),
      r.cache.index k = some rec → (r.Create tc w u).2.cache.index k = some rec) ∧
    (∀ (w : os.WriteOutcome) (u : entity.User) (id : Int) (rec : entity.User),
      (r.GetByID id).1 = .returned (rec, none) →
        ((r.Create tc w u).2.GetByID id).1 = .returned (rec, none)) := by
  have hinc := New_ok_inc h
  have h0 : 0 ≤ r.inc := by
    rw [hinc]
    exact foldl_maxStep_ge _ 0
  have hrange : goint.InRange (r.inc + 1) := by
    unfold goint.InRange goint.minInt goint.maxInt
    unfold goint.maxInt at hmax
    omega
  have hw : goint.wrap (r.inc + 1) = r.inc + 1 := wrap_of_inRange hrange
  have habs : r.cache.index (strconv.Itoa (r.inc + 1)) = none := by
    cases hidx : r.cache.index (strconv.Itoa (r.inc + 1)) with
    | none => rfl
    | some rec =>
      have hmem := mem_keys_of_index hidx
      have hle := foldl_maxStep_mem r.cache.keys 0 _ hmem
      rw [strconv.Atoi_Itoa _ hrange, ← hinc] at hle
      simp only at hle
      omega
  have hkeep : ∀ (w : os.WriteOutcome) (u : entity.User) (k : String) (rec : entity.User),
      r.cache.index k = some rec → (r.Create tc w u).2.cache.index k = some rec := by
    intro w u k rec hk
    rw [Create_cache, hw]
    cases hc : r.cache.assign (strconv.Itoa (r.inc + 1)) u with
    | none => exact hk
    | some c =>
      have hne : k ≠ strconv.Itoa (r.inc + 1) := by
        intro hkk
        rw [hkk, habs] at hk
        exact absurd hk (by simp)
      rw [index_assign_ne hc hne]
      exact hk
  refine ⟨hw, habs, hkeep, ?_⟩
  intro w u id rec hget
  have hidx : r.cache.index (strconv.Itoa id) = some rec := by
    unfold User.GetByID at hget
    cases hi : r.cache.index (strconv.Itoa id) with
    | none => simp [hi] at hget
    | some rec1 =>
      simp only [hi, Outcome.returned.injEq, Prod.mk.injEq, and_true] at hget
      rw [hget]
  unfold User.GetByID
  rw [hkeep w u _ rec hidx]

/-- C17 (witness): the repository `New` builds from a file with the keys 7, +12 and x has the
counter 12, and after the next `Create` the record under the key 7 is returned as before. -/
theorem C17_first_create_keeps_records_witness :
    ((sample.mixedRepo.Create time.secondsCodec .ok sample.alice).2.GetByID 7).1
      = .returned (entity.User.zero, none) :=
  (C17_first_create_keeps_records time.secondsCodec sample.mixedFile sample.mixedRepo rfl
    (by decide)).2.2.2 .ok sample.alice 7 entity.User.zero (by decide)

end repo

namespace usecases

/-! ### C18: the key bound at the use-case layer -/

theorem fileRepo_GetByID_present {r : repo.User} {id : Int} {rec : entity.User}
    (h : r.cache.index (strconv.Itoa id) = some rec) :
    r.GetByID id = (.returned (rec, none), r) := by
  unfold repo.User.GetByID
  rw [h]

theorem step_getUserByID (tc : time.Codec) (r : repo.User) (id : Int) :
    Request.step tc r (.getUserByID id) = r := by
  simp only [Request.step, UserUsecase.GetUserByID, New, fileRepo]
  unfold repo.User.GetByID
  cases r.cache.index (strconv.Itoa id) <;> rfl

theorem step_createUser (tc : time.Codec) (r : repo.User) (u : entity.User)
    (w : os.WriteOutcome) :
    Request.step tc r (.createUser u w) = (r.Create tc w u).2 := by
  simp only [Request.step, UserUsecase.CreateUser, New, fileRepo]
  rcases hc : r.Create tc w u with ⟨o, r1⟩
  cases o with
  | panicked msg => rfl
  | returned res =>
    obtain ⟨id, err⟩ := res
    cases err <;> rfl

theorem step_updateUser_absent (tc : time.Codec) (r : repo.User) (u : entity.User)
    (w : os.WriteOutcome) (h : r.cache.index (strconv.Itoa u.ID) = none) :
    Request.step tc r (.updateUser u w) = r := by
  simp only [Request.step]
  unfold UserUsecase.UpdateUser
  rw [GetUserByID_absent _ r r u.ID (fileRepo_GetByID_absent h)]
  rfl

theorem step_updateUser_present (tc : time.Codec) (r : repo.User) (u rec : entity.User)
    (w : os.WriteOutcome) (h : r.cache.index (strconv.Itoa u.ID) = some rec) :
    Request.step tc r (.updateUser u w) = (r.Update tc w u).2 := by
  have hget : (New (fileRepo tc w)).GetUserByID r u.ID = (.returned (rec, none), r) :=
    (GetUserByID_returned (fileRepo tc w) (fileRepo_GetByID_present h)).2.2 rfl
  simp only [Request.step]
  unfold UserUsecase.UpdateUser
  simp only [hget, errors.Is, Bool.false_eq_true, if_false]
  simp only [New, fileRepo]
  rcases hc : r.Update tc w u with ⟨o, r1⟩
  cases o with
  | panicked msg => rfl
  | returned err => cases err <;> rfl

theorem step_deleteUser_absent (tc : time.Codec) (r : repo.User) (id : Int)
    (w : os.WriteOutcome) (h : r.cache.index (strconv.Itoa id) = none) :
    Request.step tc r (.deleteUser id w) = r := by
  simp only [Request.step]
  unfold UserUsecase.DeleteUser
  rw [GetUserByID_absent _ r r id (fileRepo_GetByID_absent h)]
  rfl

theorem step_deleteUser_present (tc : time.Codec) (r : repo.User) (id : Int)
    (rec : entity.User) (w : os.WriteOutcome)
    (h : r.cache.index (strconv.Itoa id) = some rec) :
    Request.step tc r (.deleteUser id w) = (r.Delete tc w id).2 := by
  have hget : (New (fileRepo tc w)).GetUserByID r id = (.returned (rec, none), r) :=
    (GetUserByID_returned (fileRepo tc w) (fileRepo_GetByID_present h)).2.2 rfl
  simp only [Request.step]
  unfold UserUsecase.DeleteUser
  simp only [hget, errors.Is, Bool.false_eq_true, if_false]
  simp only [New, fileRepo]
  rcases hc : r.Delete tc w id with ⟨o, r1⟩
  cases o with
  | panicked msg => rfl
  | returned err => cases err <;> rfl

theorem keyBound_delete (tc : time.Codec) (w : os.WriteOutcome) {r : repo.User} (id : Int)
    (hr : repo.KeyBound r) : repo.KeyBound (r.Delete tc w id).2 := by
  intro k hk
  rw [repo.Delete_cache] at hk
  rw [repo.Delete_inc]
  exact hr k (repo.mem_keys_delete hk)

theorem keyBound_create (tc : time.Codec) (w : os.WriteOutcome) {r : repo.User}
    (u : entity.User) (hr : repo.KeyBound r) (h0 : 0 ≤ r.inc) (hmax : r.inc < goint.maxInt) :
    repo.KeyBound (r.Create tc w u).2 := by
  intro k hk
  have hw : goint.wrap (r.inc + 1) = r.inc + 1 := by
    apply repo.wrap_of_inRange
    unfold goint.InRange goint.minInt
    unfold goint.maxInt at hmax ⊢
    omega
  rw [repo.Create_cache, hw] at hk
  rw [repo.Create_inc, hw]
  cases hc : r.cache.assign (strconv.Itoa (r.inc + 1)) u with
  | none =>
    rw [hc] at hk
    obtain ⟨n, hn0, hn1, hn2⟩ := hr k hk
    exact ⟨n, hn0, by omega, hn2⟩
  | some c =>
    rw [hc] at hk
    rcases repo.mem_keys_assign hc hk with h | h
    · exact ⟨r.inc + 1, by omega, le_refl _, h⟩
    · obtain ⟨n, hn0, hn1, hn2⟩ := hr k h
      exact ⟨n, hn0, by omega, hn2⟩

theorem keys_update_present (tc : time.Codec) (w : os.WriteOutcome) {r : repo.User}
    {u rec : entity.User} (h : r.cache.index (strconv.Itoa u.ID) = some rec) {k : String}
    (hk : k ∈ (r.Update tc w u).2.cache.keys) : k ∈ r.cache.keys := by
  rw [repo.Update_cache] at hk
  cases hc : r.cache.assign (strconv.Itoa u.ID) u with
  | none =>
    rw [hc] at hk
    exact hk
  | some c =>
    rw [hc] at hk
    rcases repo.mem_keys_assign hc hk with h1 | h1
    · rw [h1]
      exact repo.mem_keys_of_index h
    · exact h1

theorem request_step_inc (tc : time.Codec) (r : repo.User) (q : Request) :
    (Request.step tc r q).inc = if q.isCreate then goint.wrap (r.inc + 1) else r.inc := by
  cases q with
  | getUserByID id => simp [step_getUserByID, Request.isCreate]
  | createUser u w => simp [step_createUser, Request.isCreate, repo.Create_inc]
  | updateUser u w =>
    cases h : r.cache.index (strconv.Itoa u.ID) with
    | none => simp [step_updateUser_absent tc r u w h, Request.isCreate]
    | some rec =>
      simp [step_updateUser_present tc r u rec w h, Request.isCreate, repo.Update_inc]
  | deleteUser id w =>
    cases h : r.cache.index (strconv.Itoa id) with
    | none => simp [step_deleteUser_absent tc r id w h, Request.isCreate]
    | some rec =>
      simp [step_deleteUser_present tc r id rec w h, Request.isCreate, repo.Delete_inc]

theorem step_keyBound (tc : time.Codec) {r : repo.User} (q : Request)
    (hr : repo.KeyBound r) (h0 : 0 ≤ r.inc)
    (hmax : q.isCreate = true → r.inc < goint.maxInt) :
    repo.KeyBound (Request.step tc r q) := by
  cases q with
  | getUserByID id =>
    rw [step_getUserByID]
    exact hr
  | createUser u w =>
    rw [step_createUser]
    exact keyBound_create tc w u hr h0 (hmax rfl)
  | updateUser u w =>
    cases h : r.cache.index (strconv.Itoa u.ID) with
    | none =>
      rw [step_updateUser_absent tc r u w h]
      exact hr
    | some rec =>
      rw [step_updateUser_present tc r u rec w h]
      intro k hk
      rw [repo.Update_inc]
      exact hr k (keys_update_present tc w h hk)
  | deleteUser id w =>
    cases h : r.cache.index (strconv.Itoa id) with
    | none =>
      rw [step_deleteUser_absent tc r id w h]
      exact hr
    | some rec =>
      rw [step_deleteUser_present tc r id rec w h]
      exact keyBound_delete tc w id hr

theorem runRequests_keyBound (tc : time.Codec) (qs : List Request) :
    ∀ r : repo.User, repo.KeyBound r → 0 ≤ r.inc →
      r.inc + (qs.countP Request.isCreate : Nat) ≤ goint.maxInt →
        repo.KeyBound (runRequests tc r qs) := by
  induction qs with
  | nil =>
    intro r hr _ _
    exact hr
  | cons q qs ih =>
    intro r hr h0 hroom
    have hrun : runRequests tc r (q :: qs) = runRequests tc (Request.step tc r q) qs := rfl
    rw [hrun]
    have hstep := request_step_inc tc r q
    unfold goint.maxInt at hroom
    by_cases hq : q.isCreate = true
    · have hcount : (q :: qs).countP Request.isCreate = qs.countP Request.isCreate + 1 := by
        rw [List.countP_cons]
        simp [hq]
      rw [hcount] at hroom
      push_cast at hroom
      have hlt : r.inc < goint.maxInt := by
        unfold goint.maxInt
        omega
      have hw : goint.wrap (r.inc + 1) = r.inc + 1 := by
        apply repo.wrap_of_inRange
        unfold goint.InRange goint.minInt goint.maxInt
        omega
      rw [if_pos hq, hw] at hstep
      apply ih _ (step_keyBound tc q hr h0 (fun _ => hlt))
      · rw [hstep]
        omega
      · rw [hstep]
        unfold goint.maxInt
        omega
    · have hcount : (q :: qs).countP Request.isCreate = qs.countP Request.isCreate := by
        rw [List.countP_cons]
        simp [hq]
      rw [hcount] at hroom
      rw [if_neg hq] at hstep
      apply ih _ (step_keyBound tc q hr h0 (fun h => absurd h hq))
      · rw [hstep]
        exact h0
      · rw [hstep]
        unfold goint.maxInt
        exact hroom

/-- C18 (amended): from a repository state that satisfies the key bound (every cache key is the
decimal text of a positive integer not above the counter) with a counter that is not
negative, every sequence of `GetUserByID`, `CreateUser`, `UpdateUser` and `DeleteUser` calls,
succeeding or failing, that does not take the counter past the largest `int` leads to a
state that satisfies the key bound again.  In every state `UpdateUser` adds no key to the
cache, and in a state that satisfies the key bound `CreateUser` leaves every record of the
cache in place. -/
theorem C18_key_bound_reachable (tc : time.Codec) (r : repo.User) (hr : repo.KeyBound r)
    (h0 : 0 ≤ r.inc) :
    (∀ qs : List Request, r.inc + (qs.countP Request.isCreate : Nat) ≤ goint.maxInt →
      repo.KeyBound (runRequests tc r qs)) ∧
    (∀ (u : entity.User) (w : os.WriteOutcome) (k : String),
      k ∈ (Request.step tc r (.updateUser u w)).cache.keys → k ∈ r.cache.keys) ∧
    (∀ (u : entity.User) (w : os.WriteOutcome) (k : String) (rec : entity.User),
      r.inc ≤ goint.maxInt → r.cache.index k = some rec →
        (Request.step tc r (.createUser u w)).cache.index k = some rec) := by
  refine ⟨?_, ?_, ?_⟩
  · intro qs hroom
    exact runRequests_keyBound tc qs r hr h0 hroom
  · intro u w k hk
    cases h : r.cache.index (strconv.Itoa u.ID) with
    | none =>
      rw [step_updateUser_absent tc r u w h] at hk
      exact hk
    | some rec =>
      rw [step_updateUser_present tc r u rec w h] at hk
      exact keys_update_present tc w h hk
  · intro u w k rec hmax hk
    rw [step_createUser, repo.Create_cache]
    cases hc : r.cache.assign (strconv.Itoa (goint.wrap (r.inc + 1))) u with
    | none => exact hk
    | some c =>
      have hne : k ≠ strconv.Itoa (goint.wrap (r.inc + 1)) := by
        intro hkk
        obtain ⟨n, hn0, hn1, hn2⟩ := hr k (repo.mem_keys_of_index hk)
        rw [hkk] at hn2
        have hn := strconv.Itoa_inj hn2
        unfold goint.wrap at hn
        unfold goint.maxInt at hmax
        omega
      rw [repo.index_assign_ne hc hne]
      exact hk

/-- C18 (witness): on the repository that holds one user under key 1, a `CreateUser`, an
`UpdateUser` of an absent user and a `DeleteUser` lead to a state that satisfies the key
bound. -/
theorem C18_key_bound_reachable_witness :
    repo.KeyBound (runRequests time.secondsCodec sample.emptyRepo
      [.createUser sample.alice .ok, .updateUser sample.bob .ok, .deleteUser 1 .ok,
        .createUser sample.bob (.fail sample.diskFull none)]) :=
  (C18_key_bound_reachable time.secondsCodec sample.emptyRepo
    (by intro k hk; simp [sample.emptyRepo, repo.userList.empty, repo.userList.keys] at hk)
    (by decide)).1
    [.createUser sample.alice .ok, .updateUser sample.bob .ok, .deleteUser 1 .ok,
      .createUser sample.bob (.fail sample.diskFull none)] (by decide)

/-- C18 (counterexample): the repository `New` builds from a file with the single key
9223372036854775807 satisfies the key bound, with the counter at the largest `int`; after
`CreateUser` the counter is the smallest `int` while the cache still holds that key, so the
key bound no longer holds. -/
theorem C18_create_user_breaks_key_bound :
    repo.New time.secondsCodec sample.maxFile = .ok sample.maxRepo ∧
    repo.KeyBound sample.maxRepo ∧
    ¬ repo.KeyBound (Request.step time.secondsCodec sample.maxRepo
      (.createUser sample.alice .ok)) := by
  refine ⟨rfl, ?_, ?_⟩
  · intro k hk
    have hkeys : sample.maxRepo.cache.keys = ["9223372036854775807"] := by decide
    rw [hkeys, List.mem_singleton] at hk
    exact ⟨9223372036854775807, by decide, by decide, by rw [hk]; decide⟩
  · intro h
    have hk : "9223372036854775807"
        ∈ (Request.step time.secondsCodec sample.maxRepo
            (.createUser sample.alice .ok)).cache.keys := by
      decide
    obtain ⟨n, hn0, hn1, _⟩ := h "9223372036854775807" hk
    have hinc : (Request.step time.secondsCodec sample.maxRepo
        (.createUser sample.alice .ok)).inc = -9223372036854775808 := by
      decide
    omega

end usecases
